import Mathlib

/-!
Verification development for the `wastebin` daemon (src/wastebin.c).

The daemon withholds CPUs and memory from Linux: it keeps two membership
arrays `cpus_online` / `cpus_taken` over CPU indices `[0, max_cpu_count)`,
a counter `wastebin_cpus_taken`, and a locked-memory extent
`wastebin_memory_taken` inside a large anonymous reservation.  This file
gives a shallow embedding of the convergence engine: the range-list parser
(`parse_sysfs_cpu_set`), the CPU adjuster (`adjust_cpus` with its two scan
loops), the memory adjuster (`adjust_memory`), the client rendezvous path
and the daemon's pipe read loop, together with theorems about them.

External effects are made explicit: writes to the per-CPU online file are
an oracle `toggle : Nat → Bool → Bool` (false = the write fails, which the
C handles by exiting), the `mlock` call is an oracle `MlockOutcome`, and
every executed external operation is recorded in an event trace.  Fatal
`exit(EXIT_FAILURE)` paths are modelled as `Except.error` outcomes.

The C take-scan decrements an `unsigned` index, so the guard
`last_online >= 0` is a tautology: when no online CPU remains below the
scan position the index wraps past zero and the scan reads memory outside
`cpus_online[0..max_cpu_count)`.  That undefined behaviour is modelled as
the explicit outcome `CpuErr.scanOutOfRange`.
-/

namespace Wastebin

/-- Embeds `#define max_cpu_count 4096` (src/wastebin.c:137). -/
def max_cpu_count : Nat := 4096

/-- The daemon's CPU bookkeeping: the two membership arrays
`cpus_online` / `cpus_taken` (as membership functions on indices below
`max_cpu_count`) and the counter `wastebin_cpus_taken`. -/
structure CpuState where
  online : Nat → Bool
  taken : Nat → Bool
  counter : Nat

/-- Embeds `count_cpu_set` (src/wastebin.c:239-245): the number of set
entries of a membership array. -/
def count_cpu_set (f : Nat → Bool) : Nat :=
  ((Finset.range max_cpu_count).filter (fun i => f i = true)).card

/-- Number of set entries at positions `p` and above; the measure of
what the release loop's upward scan can still find. -/
def count_cpu_set_from (f : Nat → Bool) (p : Nat) : Nat :=
  ((Finset.Ico p max_cpu_count).filter (fun i => f i = true)).card

/-- An external write to `/sys/devices/system/cpu/cpu%u/online`
(`set_cpu_online_state`, src/wastebin.c:141-164): the written digit is
`'0'` (take offline) or `'1'` (put back online). -/
inductive CpuEvent where
  | setOffline (cpu : Nat)
  | setOnline (cpu : Nat)
  deriving DecidableEq

/-- Fatal outcomes of `adjust_cpus` and its helpers.  `divergence` is the
`"%u cpus taken != %u expected"` exit, `exhaust` the
`"can't exhaust online cpus"` exit, `toggleFailed` the exit inside
`set_cpu_online_state`, and `scanOutOfRange` models the undefined
behaviour of a scan index leaving `[0, max_cpu_count)`. -/
inductive CpuErr where
  | divergence
  | exhaust
  | toggleFailed
  | scanOutOfRange
  deriving DecidableEq

/-- The downward scan of the take loop (src/wastebin.c:325-327):
starting just below `p`, find the greatest index whose `online` entry is
set.  `none` means the scan ran past index 0, which in the C wraps the
unsigned index and reads out of the array. -/
def findHighestBelow (online : Nat → Bool) : Nat → Option Nat
  | 0 => none
  | p + 1 => if online p then some p else findHighestBelow online p

/-- The upward scan of the release loop (src/wastebin.c:336-338), with
explicit fuel counting the remaining in-bounds positions: from `p`
upward, find the least index whose `taken` entry is set.  `none` means
the C scan runs past the end of the array. -/
def findLowestFromAux (taken : Nat → Bool) : Nat → Nat → Option Nat
  | 0, _ => none
  | fuel + 1, p => if taken p then some p else findLowestFromAux taken fuel (p + 1)

/-- The upward scan of the release loop from position `p`; it may read
exactly the in-bounds positions `p, …, max_cpu_count - 1`. -/
def findLowestFrom (taken : Nat → Bool) (p : Nat) : Option Nat :=
  findLowestFromAux taken (max_cpu_count - p) p

/-- The take-offline loop of `adjust_cpus` (src/wastebin.c:324-333):
take `k` further CPUs offline, scanning `online` downward from `p`.
Each found CPU is moved from `online` to `taken` and the real offline
transition is issued (`toggle cpu false`; a failed write is fatal).
Stopping at index 0 is fatal, refusing to exhaust the lowest CPU. -/
def takeLoop (toggle : Nat → Bool → Bool) : Nat → Nat → CpuState →
    Except CpuErr (CpuState × List CpuEvent)
  | 0, _, s => .ok (s, [])
  | k + 1, p, s =>
    match findHighestBelow s.online p with
    | none => .error .scanOutOfRange
    | some i =>
      if i = 0 then .error .exhaust
      else
        match toggle i false with
        | false => .error .toggleFailed
        | true =>
          match takeLoop toggle k i
              { s with online := Function.update s.online i false,
                       taken := Function.update s.taken i true } with
          | .ok (s2, evs) => .ok (s2, CpuEvent.setOffline i :: evs)
          | .error e => .error e

/-- The put-back-online loop of `adjust_cpus` (src/wastebin.c:335-343):
return `k` taken CPUs to service, scanning `taken` upward from `p`.
Each found CPU is moved from `taken` back to `online` and the real
online transition is issued (`toggle cpu true`). -/
def releaseLoop (toggle : Nat → Bool → Bool) : Nat → Nat → CpuState →
    Except CpuErr (CpuState × List CpuEvent)
  | 0, _, s => .ok (s, [])
  | k + 1, p, s =>
    match findLowestFrom s.taken p with
    | none => .error .scanOutOfRange
    | some i =>
      match toggle i true with
      | false => .error .toggleFailed
      | true =>
        match releaseLoop toggle k (i + 1)
            { s with taken := Function.update s.taken i false,
                     online := Function.update s.online i true } with
        | .ok (s2, evs) => .ok (s2, CpuEvent.setOnline i :: evs)
        | .error e => .error e

/-- Embeds `adjust_cpus` (src/wastebin.c:309-346).  The recomputed
cardinality of `taken` must equal the tracked counter, else the process
exits (`divergence`).  A deficit is covered by the take loop scanning
downward from `max_cpu_count`, an excess by the release loop scanning
upward from 0; finally the counter is set to the target. -/
def adjust_cpus (toggle : Nat → Bool → Bool) (ncpus : Nat) (s : CpuState) :
    Except CpuErr (CpuState × List CpuEvent) :=
  let n := count_cpu_set s.taken
  if n ≠ s.counter then .error .divergence
  else if n < ncpus then
    match takeLoop toggle (ncpus - n) max_cpu_count s with
    | .ok (s1, evs) => .ok ({ s1 with counter := ncpus }, evs)
    | .error e => .error e
  else if ncpus < n then
    match releaseLoop toggle (n - ncpus) 0 s with
    | .ok (s1, evs) => .ok ({ s1 with counter := ncpus }, evs)
    | .error e => .error e
  else .ok ({ s with counter := ncpus }, [])

/-- Both membership arrays only have entries below `max_cpu_count` (in
the C they are arrays of that length). -/
def BoundedSets (s : CpuState) : Prop :=
  (∀ i, s.online i = true → i < max_cpu_count) ∧
  (∀ i, s.taken i = true → i < max_cpu_count)

/-- No CPU index is simultaneously in `Online` and `Taken`. -/
def DisjointSets (s : CpuState) : Prop :=
  ∀ i, ¬(s.online i = true ∧ s.taken i = true)

/-- A consistent daemon CPU state: representable in the C arrays,
`Online ∩ Taken = ∅`, and the tracked counter agrees with the recomputed
cardinality of `Taken`. -/
def Consistent (s : CpuState) : Prop :=
  BoundedSets s ∧ DisjointSets s ∧ s.counter = count_cpu_set s.taken

/-! ## Memory ledger and adjuster -/

/-- Linux `EPERM`. -/
def EPERM : Int := 1

/-- Linux `EAGAIN`. -/
def EAGAIN : Int := 11

/-- Linux `EEXIST`. -/
def EEXIST : Int := 17

/-- The memory ledger: `wastebin_max_size` (size of the anonymous
reservation) and `wastebin_memory_taken` (the locked extent), both
`ssize_t` in the C (src/wastebin.c:133-134). -/
structure MemState where
  max_size : Int
  memory_taken : Int

/-- Result of the external `mlock` call: success, or failure with the
`errno` it sets.  Per POSIX `mlock` returns 0 on success and -1 on
failure — `mlockReturn` below is that return value. -/
inductive MlockOutcome where
  | success
  | failure (errno : Int)
  deriving DecidableEq

/-- The value the `mlock` call returns, as assigned to `ec`
(src/wastebin.c:354): 0 on success, -1 on failure. -/
def mlockReturn : MlockOutcome → Int
  | .success => 0
  | .failure _ => -1

/-- External memory operations issued by `adjust_memory`, each with
offset (from the reservation base) and length in bytes. -/
inductive MemEvent where
  | mlockCall (offset len : Int)
  | munlockCall (offset len : Int)
  | madviseDontneed (offset len : Int)
  deriving DecidableEq

/-- Fatal outcomes of `adjust_memory`: `lockNeedsCap` is the
`"Lock memory requires CAP_IPC_LOCK"` exit taken when `ec == EPERM`,
`lockGenericFail` the default `"Can't lock the pages in memory"` exit
(src/wastebin.c:359-366). -/
inductive MemErr where
  | lockNeedsCap
  | lockGenericFail
  deriving DecidableEq

/-- Embeds `adjust_memory` (src/wastebin.c:348-376).  Growth locks the
extent `[memory_taken, membytes)` and switches on the mlock *return
value* `ec`: 0 proceeds, `EPERM` would be the distinct capability
diagnostic, anything else the generic one.  Shrinkage munlocks and
discards `[membytes, memory_taken)` (return values unchecked). -/
def adjust_memory (mo : MlockOutcome) (membytes : Int) (m : MemState) :
    Except MemErr (MemState × List MemEvent) :=
  if m.memory_taken < membytes then
    if mlockReturn mo = 0 then
      .ok ({ m with memory_taken := membytes },
           [.mlockCall m.memory_taken (membytes - m.memory_taken)])
    else if mlockReturn mo = EPERM then .error .lockNeedsCap
    else .error .lockGenericFail
  else if membytes < m.memory_taken then
    .ok ({ m with memory_taken := membytes },
         [.munlockCall membytes (m.memory_taken - membytes),
          .madviseDontneed membytes (m.memory_taken - membytes)])
  else .ok (m, [])

/-- Recognizes the dead capability-diagnostic outcome of
`adjust_memory`. -/
def isCapError {α : Type} : Except MemErr α → Bool
  | .error .lockNeedsCap => true
  | _ => false

/-! ## Convergence iteration and sessions -/

/-- A fatal outcome of one convergence iteration. -/
inductive AdjustErr where
  | cpu (e : CpuErr)
  | mem (e : MemErr)
  deriving DecidableEq

/-- One iteration of the convergence loop body (src/wastebin.c:489-490):
run the CPU adjuster, then the memory adjuster, against the current
`DesiredState` `(membytes, ncpus)`. -/
def apply_desired (toggle : Nat → Bool → Bool) (mo : MlockOutcome)
    (membytes : Int) (ncpus : Nat) (s : CpuState) (m : MemState) :
    Except AdjustErr ((CpuState × MemState) × (List CpuEvent × List MemEvent)) :=
  match adjust_cpus toggle ncpus s with
  | .error e => .error (.cpu e)
  | .ok (s1, cevs) =>
    match adjust_memory mo membytes m with
    | .error e => .error (.mem e)
    | .ok (m1, mevs) => .ok ((s1, m1), (cevs, mevs))

/-- A session of successive CPU adjustments: the daemon applies each
received target in turn, concatenating the issued CPU transitions. -/
def runSession (toggle : Nat → Bool → Bool) (s : CpuState) :
    List Nat → Except CpuErr (CpuState × List CpuEvent)
  | [] => .ok (s, [])
  | t :: ts =>
    match adjust_cpus toggle t s with
    | .error e => .error e
    | .ok (s1, evs) =>
      match runSession toggle s1 ts with
      | .error e => .error e
      | .ok (s2, evs2) => .ok (s2, evs ++ evs2)

/-- The CPUs taken offline in a transition trace, in order. -/
def offlineEvents (tr : List CpuEvent) : List Nat :=
  tr.filterMap fun e => match e with | .setOffline i => some i | _ => none

/-- The CPUs put back online in a transition trace, in order. -/
def onlineEvents (tr : List CpuEvent) : List Nat :=
  tr.filterMap fun e => match e with | .setOnline i => some i | _ => none

/-- Invariant of a CPU-adjustment session that started with nothing
taken, written about the state and the transition trace so far.  Either
no transition has happened yet (and nothing is taken), or the first CPU
ever taken, `M`, dominates every index in `Online ∪ Taken` and is still
taken — unless everything has been released, in which case `M` is online
again and was the CPU most recently put back online. -/
def SessionInv (s : CpuState) (tr : List CpuEvent) : Prop :=
  Consistent s ∧
  ((offlineEvents tr = [] ∧ onlineEvents tr = [] ∧ ∀ i, s.taken i = false) ∨
   (∃ M, (offlineEvents tr).head? = some M ∧
      (∀ i, s.online i = true → i ≤ M) ∧
      (∀ i, s.taken i = true → i ≤ M) ∧
      (s.taken M = true ∨
       ((∀ i, s.taken i = false) ∧ s.online M = true ∧
        (onlineEvents tr).getLast? = some M))))

/-! ## Rendezvous channel: client send path and daemon read loop -/

/-- Size in bytes of the fixed `DesiredState` message
`struct { long membytes, cpus; }` on LP64 Linux (src/wastebin.c:386-388). -/
def desiredMsgSize : Int := 16

/-- Outcome of the initial rendezvous attempt of an invocation. -/
inductive ClientOutcome where
  | exitSuccess
  | becomeDaemon
  | fatalPipe
  deriving DecidableEq

/-- Embeds the rendezvous open of `main` (src/wastebin.c:411-426).
`mkfifoErrno = none` means `mkfifo("/tmp/wastebin")` succeeded and the
invocation becomes the daemon.  On `EEXIST`, the endpoint is opened for
non-blocking writing: if that succeeds, the `DesiredState` is written
(`writeResult` is the unchecked return of that `write`) and the
invocation returns 0; if the open fails, it logs and becomes the daemon
anyway.  Any other `mkfifo` error is fatal.  The returned Bool records
whether the message write was attempted. -/
def client_rendezvous (mkfifoErrno : Option Int) (openForWriteOk : Bool)
    (writeResult : Int) : ClientOutcome × Bool :=
  match mkfifoErrno with
  | none => (.becomeDaemon, false)
  | some e =>
    if e = EEXIST then
      if openForWriteOk then (.exitSuccess, true)
      else (.becomeDaemon, false)
    else (.fatalPipe, false)

/-- Decision the daemon's read loop takes for one `read` result. -/
inductive ReadDecision where
  | gotMessage
  | fatal
  | waitRetry
  deriving DecidableEq

/-- Embeds one test of the daemon's message read loop
(src/wastebin.c:497-503): `nb` is the `read` return value and `errno`
the error it set.  Exactly `sizeof(desired)` bytes is a complete
message; a positive short read, or an error other than `EAGAIN`, is the
fatal `"reading client command"` exit; otherwise the loop polls and
retries, leaving all daemon state untouched. -/
def read_loop_decision (nb errno : Int) : ReadDecision :=
  if nb = desiredMsgSize then .gotMessage
  else if 0 < nb ∨ (nb < 0 ∧ errno ≠ EAGAIN) then .fatal
  else .waitRetry

/-! ## Range-list parser

`parse_sysfs_cpu_set` (src/wastebin.c:186-237) scans the text read from
sysfs with `sscanf("%u%n%1[,-]%n", …)` per comma-separated group and,
for a `lo-hi` range, a second `sscanf("%u%n%[,]%n", …)`.  The scanf
pieces are modelled faithfully: `%u` skips whitespace, accepts an
optional sign and converts like `strtoul` (clamping at `ULONG_MAX`)
truncated to `unsigned int`; `%1[,-]` matches one of `,` `-` without
skipping whitespace; `%[,]` greedily matches one or more commas.  A
conversion that fails (`sscanf` returning `EOF` or 0) makes the parser
print a diagnostic and return normally, keeping the marks made so far. -/

/-- Character class of `isspace` for scanf whitespace skipping. -/
def isSpaceC (c : Char) : Bool :=
  c = ' ' || c = '\t' || c = '\n' || c = '\x0b' || c = '\x0c' || c = '\r'

/-- Decimal digit test. -/
def isDigitC (c : Char) : Bool :=
  decide ('0' ≤ c) && decide (c ≤ '9')

/-- Value of a decimal digit string, accumulator style. -/
def digitsToNat (acc : Nat) : List Char → Nat
  | [] => acc
  | c :: cs => digitsToNat (acc * 10 + (c.toNat - '0'.toNat)) cs

/-- Conversion of a scanned numeral the way scanf's `%u` stores it:
`strtoul` clamps at `ULONG_MAX` and negates modulo `2^64` under a `-`
sign, and the value is then truncated to `unsigned int`. -/
def uconv (neg : Bool) (d : Nat) : Nat :=
  (if neg then (2 ^ 64 - min d (2 ^ 64 - 1)) % 2 ^ 64 else min d (2 ^ 64 - 1)) % 2 ^ 32

/-- A successful `%u` conversion: the stored value and the number of
input bytes consumed (whitespace and sign included), as `%n` reports. -/
structure ScanNum where
  value : Nat
  consumed : Nat
  deriving DecidableEq

/-- The `%u` conversion of scanf on the remaining input: skip
whitespace, take an optional sign and a nonempty digit string.  `none`
is a matching/input failure (`sscanf` returns `EOF` or 0 here). -/
def scanU (s : List Char) : Option ScanNum :=
  let ws := s.takeWhile isSpaceC
  let s1 := s.drop ws.length
  match s1 with
  | [] => none
  | c :: rest =>
    let neg := c = '-'
    let signLen := if c = '-' || c = '+' then 1 else 0
    let s2 := if c = '-' || c = '+' then rest else s1
    let ds := s2.takeWhile isDigitC
    if ds.isEmpty then none
    else some ⟨uconv neg (digitsToNat 0 ds), ws.length + signLen + ds.length⟩

/-- One id reference recognized by the parse loop: a single id, or a
`lo-hi` range. -/
inductive RefEvent where
  | single (u : Nat)
  | range (lo hi : Nat)
  deriving DecidableEq

/-- Marks `cpu_states[i] = 1` for `u ≤ i ≤ ul`, the range loop at
src/wastebin.c:227-228. -/
def markRange (u ul : Nat) (m : Nat → Bool) : Nat → Bool :=
  fun i => (decide (u ≤ i) && decide (i ≤ ul)) || m i

/-- Result of one iteration of the parse scan loop.  `anomaly` is the
"invalid chars remaining" give-up (marks unchanged); `cont` carries the
updated marks, the reference just recognized, and the rest of the
input. -/
inductive IterStep where
  | anomaly
  | cont (m : Nat → Bool) (e : RefEvent) (rest : List Char)

/-- One iteration of the parse scan loop (one `do { … }` body,
src/wastebin.c:188-235): scan a number; if it is followed by `-`, scan
the range end and any trailing commas and mark `u..ul` when both ends
are below `max_cpu_count`; if followed by `,` or anything else, mark the
single id when below `max_cpu_count`. -/
def parseIter (s : List Char) (m : Nat → Bool) : IterStep :=
  match scanU s with
  | none => .anomaly
  | some n =>
    let s1 := s.drop n.consumed
    if s1.head? = some '-' then
      match scanU s1.tail with
      | none => .anomaly
      | some n2 =>
        let s3 := s1.tail.drop n2.consumed
        let commas := s3.takeWhile (fun c => c = ',')
        .cont (if n.value < max_cpu_count && n2.value < max_cpu_count then
                 markRange n.value n2.value m
               else m)
              (.range n.value n2.value) (s3.drop commas.length)
    else if s1.head? = some ',' then
      .cont (if n.value < max_cpu_count then Function.update m n.value true else m)
            (.single n.value) s1.tail
    else
      .cont (if n.value < max_cpu_count then Function.update m n.value true else m)
            (.single n.value) s1

/-- How the parse loop stopped: clean end of input or newline
(`normalEnd`), the give-up on a syntactic anomaly (`anomaly`), or fuel
exhaustion of the embedding (`fuelOut`, unreachable from
`parse_sysfs_cpu_set` because every iteration consumes at least one
byte and the fuel is the input length plus one). -/
inductive StopKind where
  | normalEnd
  | anomaly
  | fuelOut
  deriving DecidableEq

/-- Result of the parse scan loop: final marks, the references
recognized in order, and how the loop stopped. -/
structure ParseResult where
  marks : Nat → Bool
  events : List RefEvent
  stop : StopKind

/-- The parse scan loop (`do { … } while(nxt != nb && buf[nxt] != '\n')`,
src/wastebin.c:188-236), with structural fuel. -/
def parseLoopF : Nat → List Char → (Nat → Bool) → ParseResult
  | 0, _, m => ⟨m, [], .fuelOut⟩
  | fuel + 1, s, m =>
    match parseIter s m with
    | .anomaly => ⟨m, [], .anomaly⟩
    | .cont m1 e rest =>
      match rest with
      | [] => ⟨m1, [e], .normalEnd⟩
      | c :: cs =>
        if c = '\n' then ⟨m1, [e], .normalEnd⟩
        else
          let r := parseLoopF fuel (c :: cs) m1
          ⟨r.marks, e :: r.events, r.stop⟩

/-- Embeds the parsing core of `parse_sysfs_cpu_set`
(src/wastebin.c:186-237) on the text read from the sysfs file, marking
referenced ids into the membership function `init`. -/
def parse_sysfs_cpu_set (text : List Char) (init : Nat → Bool) : ParseResult :=
  parseLoopF (text.length + 1) text init

/-- Which CPU indices a recognized reference names, with the bounds the
marking code enforces: a single id marks itself when below
`max_cpu_count`; a `lo-hi` range marks its members only when both
endpoints are below `max_cpu_count`. -/
def refersTo (e : RefEvent) (i : Nat) : Prop :=
  match e with
  | .single u => i = u ∧ u < max_cpu_count
  | .range lo hi => lo ≤ i ∧ i ≤ hi ∧ lo < max_cpu_count ∧ hi < max_cpu_count

/-! ## Lemmas about `count_cpu_set` -/

theorem count_cpu_set_update_true (f : Nat → Bool) (i : Nat)
    (hi : i < max_cpu_count) (hf : f i = false) :
    count_cpu_set (Function.update f i true) = count_cpu_set f + 1 := by
  have hset : (Finset.range max_cpu_count).filter
        (fun j => Function.update f i true j = true)
      = insert i ((Finset.range max_cpu_count).filter (fun j => f j = true)) := by
    ext j
    by_cases h : j = i
    · subst h; simp [Function.update_same, hi]
    · simp [Function.update_noteq h, h]
  rw [count_cpu_set, hset, Finset.card_insert_of_not_mem (by simp [hf]), count_cpu_set]

theorem count_cpu_set_update_false (f : Nat → Bool) (i : Nat)
    (hi : i < max_cpu_count) (hf : f i = true) :
    count_cpu_set (Function.update f i false) + 1 = count_cpu_set f := by
  have hset : (Finset.range max_cpu_count).filter
        (fun j => Function.update f i false j = true)
      = ((Finset.range max_cpu_count).filter (fun j => f j = true)).erase i := by
    ext j
    by_cases h : j = i
    · subst h; simp [Function.update_same]
    · simp [Function.update_noteq h, h]
  rw [count_cpu_set, hset, count_cpu_set,
    Finset.card_erase_add_one (by simp [hf, hi])]

theorem count_cpu_set_pos (f : Nat → Bool) (i : Nat)
    (hi : i < max_cpu_count) (hf : f i = true) : 0 < count_cpu_set f := by
  refine Finset.card_pos.mpr ⟨i, ?_⟩
  simp [hf, hi]

theorem count_cpu_set_eq_zero (f : Nat → Bool) (h : count_cpu_set f = 0) :
    ∀ i, i < max_cpu_count → f i = false := by
  intro i hi
  by_contra hc
  have : f i = true := by revert hc; cases f i <;> simp
  exact absurd h (Nat.ne_of_gt (count_cpu_set_pos f i hi this))

theorem count_cpu_set_of_all_false (f : Nat → Bool) (h : ∀ i, f i = false) :
    count_cpu_set f = 0 := by
  rw [count_cpu_set, Finset.card_eq_zero, Finset.filter_eq_empty_iff]
  intro i _
  simp [h i]

theorem count_cpu_set_le_one (f : Nat → Bool)
    (h : ∀ j, j < max_cpu_count → f j = true → j = 0) : count_cpu_set f ≤ 1 := by
  have hsub : (Finset.range max_cpu_count).filter (fun j => f j = true) ⊆ {0} := by
    intro j hj
    simp only [Finset.mem_filter, Finset.mem_range] at hj
    simp [h j hj.1 hj.2]
  simpa using Finset.card_le_card hsub

/-! ## Lemmas about the two scan searches -/

theorem findHighestBelow_eq_some_of (online : Nat → Bool) (i : Nat) : ∀ (p : Nat),
    online i = true → i < p → (∀ j, i < j → j < p → online j = false) →
    findHighestBelow online p = some i := by
  intro p
  induction p with
  | zero => intro _ h _; omega
  | succ p ih =>
    intro hi hip hgap
    rw [findHighestBelow]
    rcases Nat.lt_or_ge i p with h | h
    · rw [hgap p h (Nat.lt_succ_self p)]
      simp only [Bool.false_eq_true, if_false]
      exact ih hi h (fun j hj hj2 => hgap j hj (Nat.lt_succ_of_lt hj2))
    · have : i = p := by omega
      subst this
      simp [hi]

theorem findHighestBelow_eq_none_of (online : Nat → Bool) : ∀ (p : Nat),
    (∀ j, j < p → online j = false) → findHighestBelow online p = none := by
  intro p
  induction p with
  | zero => intro; rfl
  | succ p ih =>
    intro h
    rw [findHighestBelow, h p (Nat.lt_succ_self p)]
    simp only [Bool.false_eq_true, if_false]
    exact ih (fun j hj => h j (Nat.lt_succ_of_lt hj))

theorem findHighestBelow_some (online : Nat → Bool) : ∀ (p i : Nat),
    findHighestBelow online p = some i →
    online i = true ∧ i < p ∧ ∀ j, i < j → j < p → online j = false := by
  intro p
  induction p with
  | zero => intro i h; exact absurd h (by rw [findHighestBelow]; simp)
  | succ p ih =>
    intro i h
    rw [findHighestBelow] at h
    by_cases hp : online p = true
    · rw [hp] at h
      simp only [if_true] at h
      have heq := Option.some.inj h
      subst heq
      exact ⟨hp, Nat.lt_succ_self p, fun j hj hj2 => by omega⟩
    · have hp' : online p = false := by revert hp; cases online p <;> simp
      rw [hp'] at h
      simp only [Bool.false_eq_true, if_false] at h
      obtain ⟨h1, h2, h3⟩ := ih i h
      refine ⟨h1, Nat.lt_succ_of_lt h2, fun j hj hj2 => ?_⟩
      rcases Nat.lt_or_ge j p with hlt | hge
      · exact h3 j hj hlt
      · have : j = p := by omega
        subst this; exact hp'

theorem findHighestBelow_exists (online : Nat → Bool) : ∀ (p : Nat),
    (∃ j, j < p ∧ online j = true) → ∃ i, findHighestBelow online p = some i := by
  intro p
  induction p with
  | zero => rintro ⟨j, hj, _⟩; exact absurd hj (Nat.not_lt_zero j)
  | succ p ih =>
    rintro ⟨j, hj, hjo⟩
    rw [findHighestBelow]
    by_cases hp : online p = true
    · exact ⟨p, by simp [hp]⟩
    · have hp' : online p = false := by revert hp; cases online p <;> simp
      rw [hp']
      simp only [Bool.false_eq_true, if_false]
      have hne : j ≠ p := by
        intro he
        subst he
        rw [hjo] at hp'
        exact absurd hp' (by simp)
      exact ih ⟨j, by omega, hjo⟩

theorem findLowestFromAux_some (taken : Nat → Bool) : ∀ (fuel p i : Nat),
    findLowestFromAux taken fuel p = some i →
    taken i = true ∧ p ≤ i ∧ i < p + fuel ∧ ∀ j, p ≤ j → j < i → taken j = false := by
  intro fuel
  induction fuel with
  | zero => intro p i h; exact absurd h (by rw [findLowestFromAux]; simp)
  | succ fuel ih =>
    intro p i h
    rw [findLowestFromAux] at h
    by_cases hp : taken p = true
    · rw [hp] at h
      simp only [if_true] at h
      have heq := Option.some.inj h
      subst heq
      exact ⟨hp, Nat.le_refl p, by omega, fun j h1 h2 => by omega⟩
    · have hp' : taken p = false := by revert hp; cases taken p <;> simp
      rw [hp'] at h
      simp only [Bool.false_eq_true, if_false] at h
      obtain ⟨h1, h2, h3, h4⟩ := ih (p + 1) i h
      refine ⟨h1, by omega, by omega, fun j hj1 hj2 => ?_⟩
      rcases Nat.lt_or_ge j (p + 1) with hlt | hge
      · have : j = p := by omega
        subst this; exact hp'
      · exact h4 j hge hj2

theorem findLowestFromAux_eq_some_of (taken : Nat → Bool) : ∀ (fuel p i : Nat),
    p ≤ i → i < p + fuel → taken i = true →
    (∀ j, p ≤ j → j < i → taken j = false) →
    findLowestFromAux taken fuel p = some i := by
  intro fuel
  induction fuel with
  | zero => intro p i h1 h2; omega
  | succ fuel ih =>
    intro p i h1 h2 h3 h4
    rw [findLowestFromAux]
    rcases Nat.eq_or_lt_of_le h1 with rfl | hlt
    · simp [h3]
    · rw [h4 p (Nat.le_refl p) hlt]
      simp only [Bool.false_eq_true, if_false]
      exact ih (p + 1) i hlt (by omega) h3 (fun j hj1 hj2 => h4 j (by omega) hj2)

theorem findLowestFrom_some (taken : Nat → Bool) (p i : Nat)
    (h : findLowestFrom taken p = some i) :
    taken i = true ∧ p ≤ i ∧ i < max_cpu_count ∧
      ∀ j, p ≤ j → j < i → taken j = false := by
  obtain ⟨h1, h2, h3, h4⟩ := findLowestFromAux_some taken (max_cpu_count - p) p i h
  exact ⟨h1, h2, by omega, h4⟩

theorem findLowestFrom_eq_some_of (taken : Nat → Bool) (p i : Nat)
    (h1 : p ≤ i) (h2 : i < max_cpu_count) (h3 : taken i = true)
    (h4 : ∀ j, p ≤ j → j < i → taken j = false) :
    findLowestFrom taken p = some i :=
  findLowestFromAux_eq_some_of taken (max_cpu_count - p) p i h1 (by omega) h3 h4

theorem findLowestFrom_exists (taken : Nat → Bool) (p : Nat)
    (h : ∃ j, p ≤ j ∧ j < max_cpu_count ∧ taken j = true) :
    ∃ i, findLowestFrom taken p = some i := by
  classical
  have hq : ∃ k, p ≤ k ∧ k < max_cpu_count ∧ taken k = true := h
  set k := Nat.find hq with hk
  obtain ⟨hk1, hk2, hk3⟩ := Nat.find_spec hq
  refine ⟨k, findLowestFrom_eq_some_of taken p k hk1 hk2 hk3 ?_⟩
  intro j hj1 hj2
  have := Nat.find_min hq hj2
  by_contra hc
  have hjt : taken j = true := by revert hc; cases taken j <;> simp
  exact this ⟨hj1, by omega, hjt⟩

/-! ## What a successful take loop did

`takeLoop_ok_spec` characterizes every successful run of the take loop:
the CPUs it took (in scan order `l`, all previously online, none equal
to 0, all below the scan start), the pointwise effect on both arrays,
that the first CPU taken dominates every online index below the scan
start, and the cardinality changes. -/

theorem takeLoop_ok_spec (toggle : Nat → Bool → Bool) : ∀ (k p : Nat)
    (s s2 : CpuState) (evs : List CpuEvent),
    takeLoop toggle k p s = .ok (s2, evs) →
    p ≤ max_cpu_count → BoundedSets s → DisjointSets s →
    ∃ l : List Nat,
      evs = l.map CpuEvent.setOffline ∧
      l.length = k ∧
      (∀ a, a ∈ l → s.online a = true ∧ 0 < a ∧ a < p) ∧
      (∀ j, s2.taken j = (s.taken j || decide (j ∈ l))) ∧
      (∀ j, s2.online j = (s.online j && !decide (j ∈ l))) ∧
      (∀ j a, s.online j = true → j < p → l.head? = some a → j ≤ a) ∧
      s2.counter = s.counter ∧
      count_cpu_set s2.taken = count_cpu_set s.taken + k ∧
      count_cpu_set s2.online + k = count_cpu_set s.online ∧
      BoundedSets s2 ∧ DisjointSets s2 := by
  intro k
  induction k with
  | zero =>
    intro p s s2 evs h hp hb hd
    rw [takeLoop] at h
    obtain ⟨rfl, rfl⟩ : s = s2 ∧ [] = evs := by
      have := Except.ok.inj h
      exact ⟨congrArg Prod.fst this, congrArg Prod.snd this⟩
    exact ⟨[], by simp, by simp, by simp, by simp, by simp, by simp, by simp,
      by simp, by simp, hb, hd⟩
  | succ k ih =>
    intro p s s2 evs h hp hb hd
    rw [takeLoop] at h
    cases hfind : findHighestBelow s.online p with
    | none =>
      simp only [hfind] at h
      exact absurd h (by simp)
    | some i =>
      simp only [hfind] at h
      obtain ⟨hion, hip, hgap⟩ := findHighestBelow_some s.online p i hfind
      by_cases hi0 : i = 0
      · rw [if_pos hi0] at h; exact absurd h (by simp)
      rw [if_neg hi0] at h
      set s1 : CpuState :=
        { s with online := Function.update s.online i false,
                 taken := Function.update s.taken i true } with hs1
      cases htog : toggle i false with
      | false =>
        simp only [htog] at h
        exact absurd h (by simp)
      | true =>
        simp only [htog] at h
        cases hrec : takeLoop toggle k i s1 with
        | error e =>
          simp only [hrec] at h
          exact absurd h (by simp)
        | ok r =>
          obtain ⟨s2', evs'⟩ := r
          simp only [hrec] at h
          have hpair := (Except.ok.inj h).symm
          obtain ⟨heqs, heqe⟩ : s2 = s2' ∧ evs = CpuEvent.setOffline i :: evs' :=
            ⟨congrArg Prod.fst hpair, congrArg Prod.snd hpair⟩
          subst heqs
          subst heqe
          have hitk : s.taken i = false := by
            have := hd i
            revert this hion
            cases s.taken i <;> simp
          have himax : i < max_cpu_count := by omega
          have hb1 : BoundedSets s1 := by
            constructor
            · intro j hj
              rcases eq_or_ne j i with rfl | hne
              · simp [hs1, Function.update_same] at hj
              · rw [hs1] at hj
                simp only [Function.update_noteq hne] at hj
                exact hb.1 j hj
            · intro j hj
              rcases eq_or_ne j i with rfl | hne
              · exact himax
              · rw [hs1] at hj
                simp only [Function.update_noteq hne] at hj
                exact hb.2 j hj
          have hd1 : DisjointSets s1 := by
            intro j
            rcases eq_or_ne j i with rfl | hne
            · simp [hs1, Function.update_same]
            · rw [hs1]
              simp only [Function.update_noteq hne]
              exact hd j
          obtain ⟨l1, he1, hlen1, hmem1, htk1, hon1, hhead1, hctr1, hct1,
            hco1, hb2, hd2⟩ := ih i s1 s2 evs' hrec (by omega) hb1 hd1
          refine ⟨i :: l1, by simp [he1], by simp [hlen1], ?_, ?_, ?_, ?_,
            by simpa using hctr1, ?_, ?_, hb2, hd2⟩
          · intro a ha
            rcases List.mem_cons.mp ha with rfl | ha1
            · exact ⟨hion, Nat.pos_of_ne_zero hi0, hip⟩
            · obtain ⟨ha2, ha3, ha4⟩ := hmem1 a ha1
              have hne : a ≠ i := by
                intro he; subst he
                simp [hs1, Function.update_same] at ha2
              rw [hs1] at ha2
              simp only [Function.update_noteq hne] at ha2
              exact ⟨ha2, ha3, by omega⟩
          · intro j
            rcases eq_or_ne j i with rfl | hne
            · have : s2.taken j = true := by
                rw [htk1 j, hs1]
                simp [Function.update_same]
              simp [this]
            · rw [htk1 j, hs1]
              simp only [Function.update_noteq hne]
              have : (j ∈ i :: l1) = (j ∈ l1) := by
                simp [List.mem_cons, hne]
              simp [this]
          · intro j
            rcases eq_or_ne j i with rfl | hne
            · have : s2.online j = false := by
                rw [hon1 j, hs1]
                simp [Function.update_same]
              simp [this]
            · rw [hon1 j, hs1]
              simp only [Function.update_noteq hne]
              have : (j ∈ i :: l1) = (j ∈ l1) := by
                simp [List.mem_cons, hne]
              simp [this]
          · intro j a hj hjp hha
            have : a = i := by
              simp only [List.head?] at hha
              exact (Option.some.inj hha).symm
            subst this
            by_contra hc
            have hja : a < j := by omega
            have := hgap j hja hjp
            rw [hj] at this
            exact absurd this (by simp)
          · have hstep : count_cpu_set s1.taken = count_cpu_set s.taken + 1 := by
              rw [hs1]
              exact count_cpu_set_update_true s.taken i himax hitk
            omega
          · have hstep : count_cpu_set s1.online + 1 = count_cpu_set s.online := by
              rw [hs1]
              exact count_cpu_set_update_false s.online i himax hion
            omega

/-! ## What a successful release loop did

`releaseLoop_ok_spec` characterizes every successful run of the release
loop: the CPUs it returned to service (in strictly ascending scan order
`l`, all previously taken, all at or above the scan start `p`), the
pointwise effect on both arrays, that every taken index not released
lies above every released one, and the cardinality changes. -/

theorem releaseLoop_ok_spec (toggle : Nat → Bool → Bool) : ∀ (k p : Nat)
    (s s2 : CpuState) (evs : List CpuEvent),
    releaseLoop toggle k p s = .ok (s2, evs) →
    BoundedSets s → DisjointSets s →
    ∃ l : List Nat,
      evs = l.map CpuEvent.setOnline ∧
      l.length = k ∧
      (∀ a, a ∈ l → s.taken a = true ∧ p ≤ a ∧ a < max_cpu_count) ∧
      l.Pairwise (· < ·) ∧
      (∀ j, s2.taken j = (s.taken j && !decide (j ∈ l))) ∧
      (∀ j, s2.online j = (s.online j || decide (j ∈ l))) ∧
      (∀ j, s.taken j = true → p ≤ j → j ∉ l → ∀ a, a ∈ l → a < j) ∧
      s2.counter = s.counter ∧
      count_cpu_set s2.taken + k = count_cpu_set s.taken ∧
      count_cpu_set s2.online = count_cpu_set s.online + k ∧
      BoundedSets s2 ∧ DisjointSets s2 := by
  intro k
  induction k with
  | zero =>
    intro p s s2 evs h hb hd
    rw [releaseLoop] at h
    have hpair := (Except.ok.inj h).symm
    obtain ⟨heqs, heqe⟩ : s2 = s ∧ evs = [] :=
      ⟨congrArg Prod.fst hpair, congrArg Prod.snd hpair⟩
    subst heqs
    subst heqe
    exact ⟨[], by simp, by simp, by simp, by simp, by simp, by simp, by simp,
      by simp, by simp, by simp, hb, hd⟩
  | succ k ih =>
    intro p s s2 evs h hb hd
    rw [releaseLoop] at h
    cases hfind : findLowestFrom s.taken p with
    | none =>
      simp only [hfind] at h
      exact absurd h (by simp)
    | some i =>
      simp only [hfind] at h
      obtain ⟨hitk, hpi, himax, hgap⟩ := findLowestFrom_some s.taken p i hfind
      set s1 : CpuState :=
        { s with taken := Function.update s.taken i false,
                 online := Function.update s.online i true } with hs1
      cases htog : toggle i true with
      | false =>
        simp only [htog] at h
        exact absurd h (by simp)
      | true =>
        simp only [htog] at h
        cases hrec : releaseLoop toggle k (i + 1) s1 with
        | error e =>
          simp only [hrec] at h
          exact absurd h (by simp)
        | ok r =>
          obtain ⟨s2', evs'⟩ := r
          simp only [hrec] at h
          have hpair := (Except.ok.inj h).symm
          obtain ⟨heqs, heqe⟩ : s2 = s2' ∧ evs = CpuEvent.setOnline i :: evs' :=
            ⟨congrArg Prod.fst hpair, congrArg Prod.snd hpair⟩
          subst heqs
          subst heqe
          have hioff : s.online i = false := by
            have := hd i
            revert this hitk
            cases s.online i <;> simp
          have hb1 : BoundedSets s1 := by
            constructor
            · intro j hj
              rcases eq_or_ne j i with rfl | hne
              · exact himax
              · rw [hs1] at hj
                simp only [Function.update_noteq hne] at hj
                exact hb.1 j hj
            · intro j hj
              rcases eq_or_ne j i with rfl | hne
              · simp [hs1, Function.update_same] at hj
              · rw [hs1] at hj
                simp only [Function.update_noteq hne] at hj
                exact hb.2 j hj
          have hd1 : DisjointSets s1 := by
            intro j
            rcases eq_or_ne j i with rfl | hne
            · simp [hs1, Function.update_same]
            · rw [hs1]
              simp only [Function.update_noteq hne]
              exact hd j
          obtain ⟨l1, he1, hlen1, hmem1, hpw1, htk1, hon1, hmin1, hctr1, hct1,
            hco1, hb2, hd2⟩ := ih (i + 1) s1 s2 evs' hrec hb1 hd1
          have hmem1s : ∀ a, a ∈ l1 → s.taken a = true ∧ i + 1 ≤ a ∧
              a < max_cpu_count := by
            intro a ha
            obtain ⟨ha1, ha2, ha3⟩ := hmem1 a ha
            have hne : a ≠ i := by omega
            rw [hs1] at ha1
            simp only [Function.update_noteq hne] at ha1
            exact ⟨ha1, ha2, ha3⟩
          refine ⟨i :: l1, by simp [he1], by simp [hlen1], ?_, ?_, ?_, ?_, ?_,
            by simpa using hctr1, ?_, ?_, hb2, hd2⟩
          · intro a ha
            rcases List.mem_cons.mp ha with rfl | ha1
            · exact ⟨hitk, hpi, himax⟩
            · obtain ⟨ha2, ha3, ha4⟩ := hmem1s a ha1
              exact ⟨ha2, by omega, ha4⟩
          · refine List.pairwise_cons.mpr ⟨?_, hpw1⟩
            intro a ha
            have := (hmem1s a ha).2.1
            omega
          · intro j
            rcases eq_or_ne j i with rfl | hne
            · have : s2.taken j = false := by
                rw [htk1 j, hs1]
                simp [Function.update_same]
              simp [this]
            · rw [htk1 j, hs1]
              simp only [Function.update_noteq hne]
              have : (j ∈ i :: l1) = (j ∈ l1) := by
                simp [List.mem_cons, hne]
              simp [this]
          · intro j
            rcases eq_or_ne j i with rfl | hne
            · have : s2.online j = true := by
                rw [hon1 j, hs1]
                simp [Function.update_same]
              simp [this]
            · rw [hon1 j, hs1]
              simp only [Function.update_noteq hne]
              have : (j ∈ i :: l1) = (j ∈ l1) := by
                simp [List.mem_cons, hne]
              simp [this]
          · intro j hjt hpj hjnl a ha
            have hji : j ≠ i := fun he => hjnl (he ▸ List.mem_cons_self i l1)
            have hjgt : i < j := by
              rcases Nat.lt_or_ge j i with hlt | hge
              · have := hgap j hpj hlt
                rw [hjt] at this
                exact absurd this (by simp)
              · omega
            rcases List.mem_cons.mp ha with rfl | ha1
            · exact hjgt
            · have hjt1 : s1.taken j = true := by
                rw [hs1]
                simp only [Function.update_noteq hji]
                exact hjt
              exact hmin1 j hjt1 (by omega) (fun hc => hjnl (List.mem_cons_of_mem i hc)) a ha1
          · have hstep : count_cpu_set s1.taken + 1 = count_cpu_set s.taken := by
              rw [hs1]
              exact count_cpu_set_update_false s.taken i himax hitk
            omega
          · have hstep : count_cpu_set s1.online = count_cpu_set s.online + 1 := by
              rw [hs1]
              exact count_cpu_set_update_true s.online i himax hioff
            omega

/-! ## The loops succeed under the right preconditions -/

theorem count_cpu_set_from_zero (f : Nat → Bool) :
    count_cpu_set_from f 0 = count_cpu_set f := by
  rw [count_cpu_set_from, count_cpu_set, Finset.range_eq_Ico]

theorem count_cpu_set_from_pos (f : Nat → Bool) (p : Nat)
    (h : 0 < count_cpu_set_from f p) :
    ∃ j, p ≤ j ∧ j < max_cpu_count ∧ f j = true := by
  obtain ⟨j, hj⟩ := Finset.card_pos.mp h
  simp only [Finset.mem_filter, Finset.mem_Ico] at hj
  exact ⟨j, hj.1.1, hj.1.2, hj.2⟩

theorem count_cpu_set_from_step (f : Nat → Bool) (p i : Nat)
    (hpi : p ≤ i) (hi : i < max_cpu_count) (hf : f i = true)
    (hgap : ∀ j, p ≤ j → j < i → f j = false) :
    count_cpu_set_from (Function.update f i false) (i + 1) + 1
      = count_cpu_set_from f p := by
  have hset : (Finset.Ico p max_cpu_count).filter (fun j => f j = true)
      = insert i ((Finset.Ico (i + 1) max_cpu_count).filter
          (fun j => Function.update f i false j = true)) := by
    ext j
    simp only [Finset.mem_filter, Finset.mem_Ico, Finset.mem_insert]
    constructor
    · rintro ⟨⟨hj1, hj2⟩, hj3⟩
      rcases eq_or_ne j i with rfl | hne
      · exact Or.inl rfl
      · have hji : i < j := by
          rcases Nat.lt_or_ge j i with hlt | hge
          · rw [hgap j hj1 hlt] at hj3
            exact absurd hj3 (by simp)
          · omega
        exact Or.inr ⟨⟨hji, hj2⟩, by rw [Function.update_noteq hne]; exact hj3⟩
    · rintro (rfl | ⟨⟨hj1, hj2⟩, hj3⟩)
      · exact ⟨⟨hpi, hi⟩, hf⟩
      · have hne : j ≠ i := by omega
        rw [Function.update_noteq hne] at hj3
        exact ⟨⟨by omega, hj2⟩, hj3⟩
  rw [count_cpu_set_from, count_cpu_set_from, hset,
    Finset.card_insert_of_not_mem (by simp [Function.update_same])]

theorem takeLoop_succeeds (toggle : Nat → Bool → Bool)
    (htog : ∀ a b, toggle a b = true) : ∀ (k p : Nat) (s : CpuState),
    BoundedSets s → DisjointSets s →
    (∀ j, s.online j = true → j < p) →
    k ≤ count_cpu_set s.online →
    (s.online 0 = true → k < count_cpu_set s.online) →
    ∃ s2 evs, takeLoop toggle k p s = .ok (s2, evs) := by
  intro k
  induction k with
  | zero => intro p s _ _ _ _ _; exact ⟨s, [], by rw [takeLoop]⟩
  | succ k ih =>
    intro p s hb hd hlt hk h0
    have hex : ∃ j, j < p ∧ s.online j = true := by
      obtain ⟨j, hj⟩ := Finset.card_pos.mp (show 0 < count_cpu_set s.online by omega)
      simp only [Finset.mem_filter, Finset.mem_range] at hj
      exact ⟨j, hlt j hj.2, hj.2⟩
    obtain ⟨i, hfind⟩ := findHighestBelow_exists s.online p hex
    obtain ⟨hion, hip, hgap⟩ := findHighestBelow_some s.online p i hfind
    have hi0 : i ≠ 0 := by
      intro he
      subst he
      have hone : ∀ j, j < max_cpu_count → s.online j = true → j = 0 := by
        intro j hjm hjo
        by_contra hne
        have hjp : j < p := hlt j hjo
        have := hgap j (Nat.pos_of_ne_zero hne) hjp
        rw [hjo] at this
        exact absurd this (by simp)
      have := count_cpu_set_le_one s.online hone
      have := h0 hion
      omega
    have himax : i < max_cpu_count := hb.1 i hion
    have hitk : s.taken i = false := by
      have := hd i
      revert this hion
      cases s.taken i <;> simp
    set s1 : CpuState :=
      { s with online := Function.update s.online i false,
               taken := Function.update s.taken i true } with hs1
    have hb1 : BoundedSets s1 := by
      constructor
      · intro j hj
        rcases eq_or_ne j i with rfl | hne
        · simp [hs1, Function.update_same] at hj
        · rw [hs1] at hj
          simp only [Function.update_noteq hne] at hj
          exact hb.1 j hj
      · intro j hj
        rcases eq_or_ne j i with rfl | hne
        · exact himax
        · rw [hs1] at hj
          simp only [Function.update_noteq hne] at hj
          exact hb.2 j hj
    have hd1 : DisjointSets s1 := by
      intro j
      rcases eq_or_ne j i with rfl | hne
      · simp [hs1, Function.update_same]
      · rw [hs1]
        simp only [Function.update_noteq hne]
        exact hd j
    have hlt1 : ∀ j, s1.online j = true → j < i := by
      intro j hj
      rcases eq_or_ne j i with rfl | hne
      · simp [hs1, Function.update_same] at hj
      · rw [hs1] at hj
        simp only [Function.update_noteq hne] at hj
        by_contra hc
        have hji : i < j := by omega
        have := hgap j hji (hlt j hj)
        rw [hj] at this
        exact absurd this (by simp)
    have hcnt : count_cpu_set s1.online + 1 = count_cpu_set s.online := by
      rw [hs1]
      exact count_cpu_set_update_false s.online i himax hion
    have h0s : s.online 0 = true → k + 1 < count_cpu_set s.online := h0
    obtain ⟨s2, evs, hrec⟩ := ih i s1 hb1 hd1 hlt1 (by omega) (by
      intro hz
      have hz' : s.online 0 = true := by
        rw [hs1] at hz
        simpa [Function.update_noteq (Ne.symm hi0)] using hz
      have := h0s hz'
      omega)
    refine ⟨s2, CpuEvent.setOffline i :: evs, ?_⟩
    rw [takeLoop]
    simp only [hfind, if_neg hi0, htog i false, ← hs1, hrec]

theorem releaseLoop_succeeds (toggle : Nat → Bool → Bool)
    (htog : ∀ a b, toggle a b = true) : ∀ (k p : Nat) (s : CpuState),
    k ≤ count_cpu_set_from s.taken p →
    ∃ s2 evs, releaseLoop toggle k p s = .ok (s2, evs) := by
  intro k
  induction k with
  | zero => intro p s _; exact ⟨s, [], by rw [releaseLoop]⟩
  | succ k ih =>
    intro p s hk
    obtain ⟨i, hfind⟩ := findLowestFrom_exists s.taken p
      (count_cpu_set_from_pos s.taken p (by omega))
    obtain ⟨hitk, hpi, himax, hgap⟩ := findLowestFrom_some s.taken p i hfind
    set s1 : CpuState :=
      { s with taken := Function.update s.taken i false,
               online := Function.update s.online i true } with hs1
    have hstep : count_cpu_set_from s1.taken (i + 1) + 1
        = count_cpu_set_from s.taken p := by
      rw [hs1]
      exact count_cpu_set_from_step s.taken p i hpi himax hitk hgap
    obtain ⟨s2, evs, hrec⟩ := ih (i + 1) s1 (by omega)
    refine ⟨s2, CpuEvent.setOnline i :: evs, ?_⟩
    rw [releaseLoop]
    simp only [hfind, htog i true, ← hs1, hrec]

/-! ## `adjust_cpus`: postcondition of a successful run, and success -/

theorem adjust_cpus_ok_facts (toggle : Nat → Bool → Bool) (ncpus : Nat)
    (s s2 : CpuState) (evs : List CpuEvent)
    (h : adjust_cpus toggle ncpus s = .ok (s2, evs))
    (hb : BoundedSets s) (hd : DisjointSets s) :
    count_cpu_set s.taken = s.counter ∧
    s2.counter = ncpus ∧ count_cpu_set s2.taken = ncpus ∧
    BoundedSets s2 ∧ DisjointSets s2 := by
  rw [adjust_cpus] at h
  by_cases hdiv : count_cpu_set s.taken ≠ s.counter
  · rw [if_pos hdiv] at h
    exact absurd h (by simp)
  rw [if_neg hdiv] at h
  push_neg at hdiv
  by_cases hlt : count_cpu_set s.taken < ncpus
  · rw [if_pos hlt] at h
    cases hloop : takeLoop toggle (ncpus - count_cpu_set s.taken) max_cpu_count s with
    | error e =>
      simp only [hloop] at h
      exact absurd h (by simp)
    | ok r =>
      obtain ⟨s1, evs1⟩ := r
      simp only [hloop] at h
      have hpair := (Except.ok.inj h).symm
      obtain ⟨heqs, heqe⟩ : s2 = { s1 with counter := ncpus } ∧ evs = evs1 :=
        ⟨congrArg Prod.fst hpair, congrArg Prod.snd hpair⟩
      subst heqs
      obtain ⟨l, _, _, _, _, _, _, _, hct, _, hb2, hd2⟩ :=
        takeLoop_ok_spec toggle (ncpus - count_cpu_set s.taken) max_cpu_count
          s s1 evs1 hloop (Nat.le_refl _) hb hd
      refine ⟨hdiv, rfl, ?_, ?_, ?_⟩
      · show count_cpu_set s1.taken = ncpus
        omega
      · exact hb2
      · exact hd2
  rw [if_neg hlt] at h
  by_cases hgt : ncpus < count_cpu_set s.taken
  · rw [if_pos hgt] at h
    cases hloop : releaseLoop toggle (count_cpu_set s.taken - ncpus) 0 s with
    | error e =>
      simp only [hloop] at h
      exact absurd h (by simp)
    | ok r =>
      obtain ⟨s1, evs1⟩ := r
      simp only [hloop] at h
      have hpair := (Except.ok.inj h).symm
      obtain ⟨heqs, heqe⟩ : s2 = { s1 with counter := ncpus } ∧ evs = evs1 :=
        ⟨congrArg Prod.fst hpair, congrArg Prod.snd hpair⟩
      subst heqs
      obtain ⟨l, _, _, _, _, _, _, _, _, hct, _, hb2, hd2⟩ :=
        releaseLoop_ok_spec toggle (count_cpu_set s.taken - ncpus) 0
          s s1 evs1 hloop hb hd
      refine ⟨hdiv, rfl, ?_, ?_, ?_⟩
      · show count_cpu_set s1.taken = ncpus
        omega
      · exact hb2
      · exact hd2
  rw [if_neg hgt] at h
  have hpair := (Except.ok.inj h).symm
  obtain ⟨heqs, heqe⟩ : s2 = { s with counter := ncpus } ∧ evs = [] :=
    ⟨congrArg Prod.fst hpair, congrArg Prod.snd hpair⟩
  subst heqs
  have heq : count_cpu_set s.taken = ncpus := by omega
  exact ⟨hdiv, rfl, heq, hb, hd⟩

/-- Which branch a successful `adjust_cpus` run went through, with the
inner loop run it contains. -/
theorem adjust_cpus_ok_cases (toggle : Nat → Bool → Bool) (ncpus : Nat)
    (s s2 : CpuState) (evs : List CpuEvent)
    (h : adjust_cpus toggle ncpus s = .ok (s2, evs)) :
    count_cpu_set s.taken = s.counter ∧
    ((count_cpu_set s.taken < ncpus ∧ ∃ s1,
        takeLoop toggle (ncpus - count_cpu_set s.taken) max_cpu_count s
          = .ok (s1, evs) ∧ s2 = { s1 with counter := ncpus }) ∨
     (ncpus < count_cpu_set s.taken ∧ ∃ s1,
        releaseLoop toggle (count_cpu_set s.taken - ncpus) 0 s
          = .ok (s1, evs) ∧ s2 = { s1 with counter := ncpus }) ∨
     (ncpus = count_cpu_set s.taken ∧ s2 = { s with counter := ncpus } ∧
        evs = [])) := by
  rw [adjust_cpus] at h
  by_cases hdiv : count_cpu_set s.taken ≠ s.counter
  · rw [if_pos hdiv] at h
    exact absurd h (by simp)
  rw [if_neg hdiv] at h
  push_neg at hdiv
  refine ⟨hdiv, ?_⟩
  by_cases hlt : count_cpu_set s.taken < ncpus
  · rw [if_pos hlt] at h
    cases hloop : takeLoop toggle (ncpus - count_cpu_set s.taken) max_cpu_count s with
    | error e =>
      simp only [hloop] at h
      exact absurd h (by simp)
    | ok r =>
      obtain ⟨s1, evs1⟩ := r
      simp only [hloop] at h
      have hpair := (Except.ok.inj h).symm
      obtain ⟨heqs, heqe⟩ : s2 = { s1 with counter := ncpus } ∧ evs = evs1 :=
        ⟨congrArg Prod.fst hpair, congrArg Prod.snd hpair⟩
      subst heqs
      exact Or.inl ⟨hlt, s1, by rw [heqe], rfl⟩
  rw [if_neg hlt] at h
  by_cases hgt : ncpus < count_cpu_set s.taken
  · rw [if_pos hgt] at h
    cases hloop : releaseLoop toggle (count_cpu_set s.taken - ncpus) 0 s with
    | error e =>
      simp only [hloop] at h
      exact absurd h (by simp)
    | ok r =>
      obtain ⟨s1, evs1⟩ := r
      simp only [hloop] at h
      have hpair := (Except.ok.inj h).symm
      obtain ⟨heqs, heqe⟩ : s2 = { s1 with counter := ncpus } ∧ evs = evs1 :=
        ⟨congrArg Prod.fst hpair, congrArg Prod.snd hpair⟩
      subst heqs
      exact Or.inr (Or.inl ⟨hgt, s1, by rw [heqe], rfl⟩)
  rw [if_neg hgt] at h
  have hpair := (Except.ok.inj h).symm
  obtain ⟨heqs, heqe⟩ : s2 = { s with counter := ncpus } ∧ evs = [] :=
    ⟨congrArg Prod.fst hpair, congrArg Prod.snd hpair⟩
  exact Or.inr (Or.inr ⟨by omega, heqs, heqe⟩)

theorem adjust_cpus_succeeds (toggle : Nat → Bool → Bool)
    (htog : ∀ a b, toggle a b = true) (ncpus : Nat) (s : CpuState)
    (hcons : Consistent s)
    (hcpu : ncpus ≤ count_cpu_set s.online)
    (hzero : s.online 0 = true → count_cpu_set s.taken = 0 →
      ncpus < count_cpu_set s.online) :
    ∃ s2 evs, adjust_cpus toggle ncpus s = .ok (s2, evs) := by
  obtain ⟨hb, hd, hctr⟩ := hcons
  rw [adjust_cpus]
  rw [if_neg (by omega : ¬count_cpu_set s.taken ≠ s.counter)]
  by_cases hlt : count_cpu_set s.taken < ncpus
  · rw [if_pos hlt]
    obtain ⟨s2, evs, hloop⟩ := takeLoop_succeeds toggle htog
      (ncpus - count_cpu_set s.taken) max_cpu_count s hb hd
      (fun j hj => hb.1 j hj) (by omega)
      (by
        intro h0
        by_cases hz : count_cpu_set s.taken = 0
        · have := hzero h0 hz
          omega
        · omega)
    exact ⟨{ s2 with counter := ncpus }, evs, by simp only [hloop]⟩
  rw [if_neg hlt]
  by_cases hgt : ncpus < count_cpu_set s.taken
  · rw [if_pos hgt]
    obtain ⟨s2, evs, hloop⟩ := releaseLoop_succeeds toggle htog
      (count_cpu_set s.taken - ncpus) 0 s
      (by rw [count_cpu_set_from_zero]; omega)
    exact ⟨{ s2 with counter := ncpus }, evs, by simp only [hloop]⟩
  rw [if_neg hgt]
  exact ⟨{ s with counter := ncpus }, [], rfl⟩

/-! ## `adjust_memory`: postcondition and success -/

theorem adjust_memory_ok_taken (mo : MlockOutcome) (membytes : Int)
    (m m2 : MemState) (evs : List MemEvent)
    (h : adjust_memory mo membytes m = .ok (m2, evs)) :
    m2.memory_taken = membytes ∧ m2.max_size = m.max_size := by
  rw [adjust_memory] at h
  by_cases hlt : m.memory_taken < membytes
  · rw [if_pos hlt] at h
    by_cases hec : mlockReturn mo = 0
    · rw [if_pos hec] at h
      have hpair := (Except.ok.inj h).symm
      have heqs : m2 = { m with memory_taken := membytes } :=
        congrArg Prod.fst hpair
      rw [heqs]
      exact ⟨rfl, rfl⟩
    · rw [if_neg hec] at h
      by_cases hep : mlockReturn mo = EPERM
      · rw [if_pos hep] at h
        exact absurd h (by simp)
      · rw [if_neg hep] at h
        exact absurd h (by simp)
  rw [if_neg hlt] at h
  by_cases hgt : membytes < m.memory_taken
  · rw [if_pos hgt] at h
    have hpair := (Except.ok.inj h).symm
    have heqs : m2 = { m with memory_taken := membytes } :=
      congrArg Prod.fst hpair
    rw [heqs]
    exact ⟨rfl, rfl⟩
  rw [if_neg hgt] at h
  have hpair := (Except.ok.inj h).symm
  have heqs : m2 = m := congrArg Prod.fst hpair
  rw [heqs]
  constructor
  · omega
  · rfl

theorem adjust_memory_succeeds (membytes : Int) (m : MemState) :
    ∃ m2 evs, adjust_memory .success membytes m = .ok (m2, evs) ∧
      m2.memory_taken = membytes := by
  rw [adjust_memory]
  by_cases hlt : m.memory_taken < membytes
  · rw [if_pos hlt]
    exact ⟨{ m with memory_taken := membytes }, _,
      by rw [if_pos (show mlockReturn MlockOutcome.success = 0 from rfl)], rfl⟩
  rw [if_neg hlt]
  by_cases hgt : membytes < m.memory_taken
  · rw [if_pos hgt]
    exact ⟨{ m with memory_taken := membytes }, _, rfl, rfl⟩
  rw [if_neg hgt]
  exact ⟨m, [], rfl, by omega⟩

/-! ## Trace bookkeeping -/

theorem offlineEvents_append (a b : List CpuEvent) :
    offlineEvents (a ++ b) = offlineEvents a ++ offlineEvents b := by
  simp [offlineEvents]

theorem onlineEvents_append (a b : List CpuEvent) :
    onlineEvents (a ++ b) = onlineEvents a ++ onlineEvents b := by
  simp [onlineEvents]

theorem offlineEvents_map_setOffline (l : List Nat) :
    offlineEvents (l.map CpuEvent.setOffline) = l := by
  induction l with
  | nil => rfl
  | cons a as ih => simp [offlineEvents] at ih ⊢; exact ih

theorem onlineEvents_map_setOffline (l : List Nat) :
    onlineEvents (l.map CpuEvent.setOffline) = [] := by
  simp [onlineEvents]

theorem offlineEvents_map_setOnline (l : List Nat) :
    offlineEvents (l.map CpuEvent.setOnline) = [] := by
  simp [offlineEvents]

theorem onlineEvents_map_setOnline (l : List Nat) :
    onlineEvents (l.map CpuEvent.setOnline) = l := by
  induction l with
  | nil => rfl
  | cons a as ih => simp [onlineEvents] at ih ⊢; exact ih

/-- In a strictly ascending list, an upper-bounding member is the last
element. -/
theorem getLast?_of_sorted_max (M : Nat) : ∀ (l : List Nat),
    l.Pairwise (· < ·) → M ∈ l → (∀ a, a ∈ l → a ≤ M) →
    l.getLast? = some M := by
  intro l
  induction l with
  | nil => intro _ hm _; exact absurd hm (List.not_mem_nil M)
  | cons a as ih =>
    intro hpw hm hub
    cases as with
    | nil =>
      rcases List.mem_cons.mp hm with rfl | hm2
      · rfl
      · exact absurd hm2 (List.not_mem_nil M)
    | cons b bs =>
      rw [List.getLast?_cons_cons]
      have hpw2 := (List.pairwise_cons.mp hpw).2
      have hlt := (List.pairwise_cons.mp hpw).1
      rcases List.mem_cons.mp hm with rfl | hm2
      · have hbM : b ≤ M := hub b (List.mem_cons_of_mem M (List.mem_cons_self b bs))
        have := hlt b (List.mem_cons_self b bs)
        omega
      · exact ih hpw2 hm2 (fun x hx => hub x (List.mem_cons_of_mem a hx))

theorem exists_mem_of_count_pos (f : Nat → Bool) (h : 0 < count_cpu_set f) :
    ∃ j, j < max_cpu_count ∧ f j = true := by
  obtain ⟨j, hj⟩ := Finset.card_pos.mp h
  simp only [Finset.mem_filter, Finset.mem_range] at hj
  exact ⟨j, hj.1, hj.2⟩

theorem all_false_of_count_zero (f : Nat → Bool)
    (hb : ∀ i, f i = true → i < max_cpu_count)
    (h : count_cpu_set f = 0) : ∀ i, f i = false := by
  intro i
  by_contra hc
  have hit : f i = true := by revert hc; cases f i <;> simp
  exact absurd h (Nat.ne_of_gt (count_cpu_set_pos f i (hb i hit) hit))

/-! ## The session invariant is preserved by every successful adjustment -/

theorem sessionInv_step (toggle : Nat → Bool → Bool) (t : Nat)
    (s s2 : CpuState) (tr evs : List CpuEvent)
    (hinv : SessionInv s tr) (h : adjust_cpus toggle t s = .ok (s2, evs)) :
    SessionInv s2 (tr ++ evs) := by
  obtain ⟨⟨hb, hd, hctr⟩, hcase⟩ := hinv
  obtain ⟨_, hc2, hcnt2, hb2, hd2⟩ := adjust_cpus_ok_facts toggle t s s2 evs h hb hd
  refine ⟨⟨hb2, hd2, by rw [hc2, hcnt2]⟩, ?_⟩
  obtain ⟨hn, hbr⟩ := adjust_cpus_ok_cases toggle t s s2 evs h
  rcases hbr with ⟨hlt, s1, hloop, hs2eq⟩ | ⟨hgt, s1, hloop, hs2eq⟩ | ⟨heqt, hs2eq, hevs⟩
  · -- take branch
    obtain ⟨l, hevsl, hlen, hmem, htk, hon, hhead, _, _, _, _, _⟩ :=
      takeLoop_ok_spec toggle (t - count_cpu_set s.taken) max_cpu_count
        s s1 evs hloop (Nat.le_refl _) hb hd
    obtain ⟨i0, l', rfl⟩ : ∃ i0 l', l = i0 :: l' := by
      cases l with
      | nil => rw [List.length_nil] at hlen; omega
      | cons a as => exact ⟨a, as, rfl⟩
    have hoffevs : offlineEvents evs = i0 :: l' := by
      rw [hevsl]; exact offlineEvents_map_setOffline _
    have hs2tk : ∀ j, s2.taken j = (s.taken j || decide (j ∈ i0 :: l')) := by
      intro j; rw [hs2eq]; exact htk j
    have hs2on : ∀ j, s2.online j = (s.online j && !decide (j ∈ i0 :: l')) := by
      intro j; rw [hs2eq]; exact hon j
    have hmem_le_i0 : ∀ a, a ∈ i0 :: l' → a ≤ i0 := by
      intro a ha
      obtain ⟨hao, _, _⟩ := hmem a ha
      exact hhead a i0 hao (hb.1 a hao) rfl
    rcases hcase with ⟨hoff0, _, htk0⟩ | ⟨M, hhd, honb, htkb, hMcase⟩
    · -- no transition had happened: the first CPU taken is i0
      refine Or.inr ⟨i0, ?_, ?_, ?_, Or.inl ?_⟩
      · rw [offlineEvents_append, hoff0, hoffevs]; rfl
      · intro i hi
        rw [hs2on i] at hi
        simp only [Bool.and_eq_true, Bool.not_eq_true', decide_eq_false_iff_not] at hi
        exact hhead i i0 hi.1 (hb.1 i hi.1) rfl
      · intro i hi
        rw [hs2tk i] at hi
        simp only [Bool.or_eq_true, decide_eq_true_eq] at hi
        rcases hi with hi | hi
        · rw [htk0 i] at hi; exact absurd hi (by simp)
        · exact hmem_le_i0 i hi
      · rw [hs2tk i0]
        simp
    · have htrne : offlineEvents tr ≠ [] := by
        intro hnil; rw [hnil] at hhd; exact absurd hhd (by simp)
      have hheadpres : (offlineEvents (tr ++ evs)).head? = some M := by
        rw [offlineEvents_append, List.head?_append_of_ne_nil _ htrne]; exact hhd
      have honb2 : ∀ i, s2.online i = true → i ≤ M := by
        intro i hi
        rw [hs2on i] at hi
        simp only [Bool.and_eq_true, Bool.not_eq_true', decide_eq_false_iff_not] at hi
        exact honb i hi.1
      have htkb2 : ∀ i, s2.taken i = true → i ≤ M := by
        intro i hi
        rw [hs2tk i] at hi
        simp only [Bool.or_eq_true, decide_eq_true_eq] at hi
        rcases hi with hi | hi
        · exact htkb i hi
        · exact honb i (hmem i hi).1
      rcases hMcase with hMtk | ⟨hall0, hMon, _⟩
      · -- M is still taken after further takes
        refine Or.inr ⟨M, hheadpres, honb2, htkb2, Or.inl ?_⟩
        rw [hs2tk M, hMtk]
        simp
      · -- everything had been released; the new first take is M again
        have hi0M : i0 = M := by
          have h1 : i0 ≤ M := honb i0 (hmem i0 (List.mem_cons_self i0 l')).1
          have h2 : M ≤ i0 := hhead M i0 hMon (hb.1 M hMon) rfl
          omega
        refine Or.inr ⟨M, hheadpres, honb2, htkb2, Or.inl ?_⟩
        rw [hs2tk M]
        have : M ∈ i0 :: l' := by rw [hi0M]; exact List.mem_cons_self M l'
        simp [this]
  · -- release branch
    obtain ⟨l, hevsl, hlen, hmem, hpw, htk, hon, hmin, _, hct, _, _, _⟩ :=
      releaseLoop_ok_spec toggle (count_cpu_set s.taken - t) 0 s s1 evs hloop hb hd
    have hoffevs : offlineEvents evs = [] := by
      rw [hevsl]; exact offlineEvents_map_setOnline _
    have honevs : onlineEvents evs = l := by
      rw [hevsl]; exact onlineEvents_map_setOnline _
    have hs2tk : ∀ j, s2.taken j = (s.taken j && !decide (j ∈ l)) := by
      intro j; rw [hs2eq]; exact htk j
    have hs2on : ∀ j, s2.online j = (s.online j || decide (j ∈ l)) := by
      intro j; rw [hs2eq]; exact hon j
    rcases hcase with ⟨_, _, htk0⟩ | ⟨M, hhd, honb, htkb, hMcase⟩
    · exact absurd (count_cpu_set_of_all_false s.taken htk0) (by omega)
    have htrne : offlineEvents tr ≠ [] := by
      intro hnil; rw [hnil] at hhd; exact absurd hhd (by simp)
    have hheadpres : (offlineEvents (tr ++ evs)).head? = some M := by
      rw [offlineEvents_append, hoffevs, List.append_nil]; exact hhd
    rcases hMcase with hMtk | ⟨hall0, _, _⟩
    · have hmemle : ∀ a, a ∈ l → a ≤ M := by
        intro a ha
        exact htkb a (hmem a ha).1
      have honb2 : ∀ i, s2.online i = true → i ≤ M := by
        intro i hi
        rw [hs2on i] at hi
        simp only [Bool.or_eq_true, decide_eq_true_eq] at hi
        rcases hi with hi | hi
        · exact honb i hi
        · exact hmemle i hi
      by_cases ht0 : t = 0
      · -- full release: M is put back online last
        subst ht0
        have hall2 : ∀ i, s2.taken i = false :=
          all_false_of_count_zero s2.taken hb2.2 hcnt2
        have hMl : M ∈ l := by
          by_contra hnl
          have hx := hs2tk M
          rw [hall2 M, hMtk] at hx
          simp [hnl] at hx
        have hlne : l ≠ [] := by
          intro hnil; rw [hnil] at hMl; exact absurd hMl (List.not_mem_nil M)
        refine Or.inr ⟨M, hheadpres, honb2, ?_, Or.inr ⟨hall2, ?_, ?_⟩⟩
        · intro i hi
          rw [hall2 i] at hi
          exact absurd hi (by simp)
        · rw [hs2on M]
          simp [hMl]
        · rw [onlineEvents_append, honevs,
            List.getLast?_append_of_ne_nil _ hlne]
          exact getLast?_of_sorted_max M l hpw hMl hmemle
      · -- partial release: M is not among the k lowest, so it stays taken
        have hpos : 0 < count_cpu_set s2.taken := by omega
        obtain ⟨j, hjmax, hjt⟩ := exists_mem_of_count_pos s2.taken hpos
        have hj2 := hs2tk j
        rw [hjt] at hj2
        have hjfacts : s.taken j = true ∧ j ∉ l := by
          revert hj2
          by_cases hjl : j ∈ l
          · simp [hjl]
          · simp [hjl]
        have hMnl : M ∉ l := by
          intro hMl
          have h1 := hmin j hjfacts.1 (Nat.zero_le j) hjfacts.2 M hMl
          have h2 := htkb j hjfacts.1
          omega
        have hMtk2 : s2.taken M = true := by
          rw [hs2tk M, hMtk]
          simp [hMnl]
        refine Or.inr ⟨M, hheadpres, honb2, ?_, Or.inl hMtk2⟩
        intro i hi
        rw [hs2tk i] at hi
        simp only [Bool.and_eq_true] at hi
        exact htkb i hi.1
    · exact absurd (count_cpu_set_of_all_false s.taken hall0) (by omega)
  · -- no adjustment needed: nothing changes
    rw [hevs, List.append_nil, hs2eq]
    exact hcase

/-- At the end of a session in which some CPU was taken and everything
is released again, the invariant forces the last online transition to
name the first CPU ever taken. -/
theorem sessionInv_final (s : CpuState) (tr : List CpuEvent)
    (hinv : SessionInv s tr) (hall : ∀ i, s.taken i = false)
    (hne : offlineEvents tr ≠ []) :
    (onlineEvents tr).getLast? = (offlineEvents tr).head? := by
  obtain ⟨_, hcase⟩ := hinv
  rcases hcase with ⟨hoff0, _, _⟩ | ⟨M, hhd, _, _, hMcase⟩
  · exact absurd hoff0 hne
  rcases hMcase with hMtk | ⟨_, _, hlast⟩
  · rw [hall M] at hMtk
    exact absurd hMtk (by simp)
  · rw [hlast, hhd]

/-- Running a session of adjustments preserves the session invariant,
accumulating the trace. -/
theorem runSession_inv (toggle : Nat → Bool → Bool) : ∀ (targets : List Nat)
    (s : CpuState) (tr0 : List CpuEvent) (s2 : CpuState) (tr : List CpuEvent),
    SessionInv s tr0 → runSession toggle s targets = .ok (s2, tr) →
    SessionInv s2 (tr0 ++ tr) := by
  intro targets
  induction targets with
  | nil =>
    intro s tr0 s2 tr hinv h
    rw [runSession] at h
    have hpair := (Except.ok.inj h).symm
    obtain ⟨heqs, heqe⟩ : s2 = s ∧ tr = [] :=
      ⟨congrArg Prod.fst hpair, congrArg Prod.snd hpair⟩
    subst heqs
    subst heqe
    rw [List.append_nil]
    exact hinv
  | cons t ts ih =>
    intro s tr0 s2 tr hinv h
    rw [runSession] at h
    cases hadj : adjust_cpus toggle t s with
    | error e =>
      simp only [hadj] at h
      exact absurd h (by simp)
    | ok r =>
      obtain ⟨s1, evs⟩ := r
      simp only [hadj] at h
      cases hrun : runSession toggle s1 ts with
      | error e =>
        simp only [hrun] at h
        exact absurd h (by simp)
      | ok r2 =>
        obtain ⟨s2', tr'⟩ := r2
        simp only [hrun] at h
        have hpair := (Except.ok.inj h).symm
        obtain ⟨heqs, heqe⟩ : s2 = s2' ∧ tr = evs ++ tr' :=
          ⟨congrArg Prod.fst hpair, congrArg Prod.snd hpair⟩
        subst heqs
        subst heqe
        have hstep := sessionInv_step toggle t s s1 tr0 evs hinv hadj
        have := ih s1 (tr0 ++ evs) s2 tr' hstep hrun
        rw [List.append_assoc] at this
        exact this

/-! ## Parser lemmas -/

theorem refersTo_lt (e : RefEvent) (i : Nat) (h : refersTo e i) :
    i < max_cpu_count := by
  cases e with
  | single u =>
    obtain ⟨h1, h2⟩ := h
    omega
  | range lo hi =>
    obtain ⟨h1, h2, h3, h4⟩ := h
    omega

/-- One parse-loop iteration marks exactly the ids its recognized
reference names (subject to the `max_cpu_count` guards). -/
theorem parseIter_cont_marks (s : List Char) (m m1 : Nat → Bool)
    (e : RefEvent) (rest : List Char) (h : parseIter s m = .cont m1 e rest) :
    ∀ i, m1 i = true ↔ (m i = true ∨ refersTo e i) := by
  rw [parseIter] at h
  cases hs : scanU s with
  | none =>
    simp only [hs] at h
    exact absurd h (by simp)
  | some n =>
    simp only [hs] at h
    by_cases h1 : (s.drop n.consumed).head? = some '-'
    · rw [if_pos h1] at h
      cases hs2 : scanU (s.drop n.consumed).tail with
      | none =>
        simp only [hs2] at h
        exact absurd h (by simp)
      | some n2 =>
        simp only [hs2] at h
        cases h
        intro i
        by_cases hg : n.value < max_cpu_count ∧ n2.value < max_cpu_count
        · rw [if_pos (by simp [hg.1, hg.2])]
          simp only [markRange, refersTo, Bool.or_eq_true, Bool.and_eq_true,
            decide_eq_true_eq]
          constructor
          · rintro (⟨ha, hb⟩ | hm)
            · exact Or.inr ⟨ha, hb, hg.1, hg.2⟩
            · exact Or.inl hm
          · rintro (hm | ⟨ha, hb, _, _⟩)
            · exact Or.inr hm
            · exact Or.inl ⟨ha, hb⟩
        · rw [if_neg (by
            intro hc
            simp only [Bool.and_eq_true, decide_eq_true_eq] at hc
            exact hg hc)]
          simp only [refersTo]
          constructor
          · exact Or.inl
          · rintro (hm | ⟨_, _, hlo, hhi⟩)
            · exact hm
            · exact absurd ⟨hlo, hhi⟩ hg
    · rw [if_neg h1] at h
      by_cases h2 : (s.drop n.consumed).head? = some ','
      all_goals
        first
          | rw [if_pos h2] at h
          | rw [if_neg h2] at h
      all_goals
        cases h
        intro i
        by_cases hg : n.value < max_cpu_count
        · rw [if_pos hg]
          simp only [refersTo]
          rcases eq_or_ne i n.value with rfl | hne
          · simp [Function.update_same, hg]
          · simp [Function.update_noteq hne, hne]
        · rw [if_neg hg]
          simp only [refersTo]
          constructor
          · exact Or.inl
          · rintro (hm | ⟨rfl, hlt⟩)
            · exact hm
            · exact absurd hlt hg

/-- The marks produced by the parse loop are the initial marks plus
exactly the ids named by the recognized references. -/
theorem parseLoopF_marks : ∀ (fuel : Nat) (s : List Char) (m : Nat → Bool)
    (i : Nat), (parseLoopF fuel s m).marks i = true ↔
      (m i = true ∨ ∃ e, e ∈ (parseLoopF fuel s m).events ∧ refersTo e i) := by
  intro fuel
  induction fuel with
  | zero =>
    intro s m i
    rw [parseLoopF]
    simp
  | succ fuel ih =>
    intro s m i
    cases hit : parseIter s m with
    | anomaly => simp [parseLoopF, hit]
    | cont m1 e rest =>
      have hiter := parseIter_cont_marks s m m1 e rest hit
      cases rest with
      | nil =>
        simp only [parseLoopF, hit, List.mem_singleton]
        constructor
        · intro hm
          rcases (hiter i).mp hm with hm | hr
          · exact Or.inl hm
          · exact Or.inr ⟨e, rfl, hr⟩
        · rintro (hm | ⟨e2, rfl, hr⟩)
          · exact (hiter i).mpr (Or.inl hm)
          · exact (hiter i).mpr (Or.inr hr)
      | cons c cs =>
        by_cases hcn : c = '\n'
        · simp only [parseLoopF, hit]
          rw [if_pos hcn]
          simp only [List.mem_singleton]
          constructor
          · intro hm
            rcases (hiter i).mp hm with hm | hr
            · exact Or.inl hm
            · exact Or.inr ⟨e, rfl, hr⟩
          · rintro (hm | ⟨e2, rfl, hr⟩)
            · exact (hiter i).mpr (Or.inl hm)
            · exact (hiter i).mpr (Or.inr hr)
        · simp only [parseLoopF, hit]
          rw [if_neg hcn]
          simp only [List.mem_cons]
          constructor
          · intro hm
            rcases (ih (c :: cs) m1 i).mp hm with hm1 | ⟨e2, he2, hr⟩
            · rcases (hiter i).mp hm1 with hm2 | hr2
              · exact Or.inl hm2
              · exact Or.inr ⟨e, Or.inl rfl, hr2⟩
            · exact Or.inr ⟨e2, Or.inr he2, hr⟩
          · rintro (hm | ⟨e2, rfl | he2, hr⟩)
            · exact (ih (c :: cs) m1 i).mpr
                (Or.inl ((hiter i).mpr (Or.inl hm)))
            · exact (ih (c :: cs) m1 i).mpr
                (Or.inl ((hiter i).mpr (Or.inr hr)))
            · exact (ih (c :: cs) m1 i).mpr (Or.inr ⟨e2, he2, hr⟩)

/-- A matching failure of the leading `%u` makes the parse loop give up
at once, keeping the marks and recognizing nothing. -/
theorem parseLoopF_stop_at_anomaly (fuel : Nat) (s : List Char)
    (m : Nat → Bool) (h : scanU s = none) :
    parseLoopF (fuel + 1) s m = ⟨m, [], .anomaly⟩ := by
  rw [parseLoopF]
  have hit : parseIter s m = .anomaly := by
    rw [parseIter]
    simp only [h]
  rw [hit]

/-- A matching failure of the `%u` after a `-` likewise makes the parse
loop give up at once: the partial range marks nothing. -/
theorem parseLoopF_stop_at_range_anomaly (fuel : Nat) (s : List Char)
    (m : Nat → Bool) (n : ScanNum) (s2 : List Char)
    (h1 : scanU s = some n) (h2 : s.drop n.consumed = '-' :: s2)
    (h3 : scanU s2 = none) :
    parseLoopF (fuel + 1) s m = ⟨m, [], .anomaly⟩ := by
  have hit : parseIter s m = .anomaly := by
    rw [parseIter]
    simp only [h1]
    rw [if_pos (by rw [h2]; rfl)]
    have ht : (s.drop n.consumed).tail = s2 := by rw [h2]; rfl
    rw [ht]
    simp only [h3]
  simp only [parseLoopF, hit]

/-! ## Disjointness is preserved without any boundedness assumption -/

theorem takeLoop_preserves_disjoint (toggle : Nat → Bool → Bool) :
    ∀ (k p : Nat) (s s2 : CpuState) (evs : List CpuEvent),
    takeLoop toggle k p s = .ok (s2, evs) → DisjointSets s →
    DisjointSets s2 := by
  intro k
  induction k with
  | zero =>
    intro p s s2 evs h hd
    rw [takeLoop] at h
    have heqs : s2 = s := congrArg Prod.fst (Except.ok.inj h).symm
    rw [heqs]
    exact hd
  | succ k ih =>
    intro p s s2 evs h hd
    rw [takeLoop] at h
    cases hfind : findHighestBelow s.online p with
    | none =>
      simp only [hfind] at h
      exact absurd h (by simp)
    | some i =>
      simp only [hfind] at h
      by_cases hi0 : i = 0
      · rw [if_pos hi0] at h
        exact absurd h (by simp)
      rw [if_neg hi0] at h
      set s1 : CpuState :=
        { s with online := Function.update s.online i false,
                 taken := Function.update s.taken i true } with hs1
      cases htog : toggle i false with
      | false =>
        simp only [htog] at h
        exact absurd h (by simp)
      | true =>
        simp only [htog] at h
        cases hrec : takeLoop toggle k i s1 with
        | error e =>
          simp only [hrec] at h
          exact absurd h (by simp)
        | ok r =>
          obtain ⟨s2', evs'⟩ := r
          simp only [hrec] at h
          have heqs : s2 = s2' := congrArg Prod.fst (Except.ok.inj h).symm
          rw [heqs]
          refine ih i s1 s2' evs' hrec ?_
          intro j
          rcases eq_or_ne j i with rfl | hne
          · simp [hs1, Function.update_same]
          · rw [hs1]
            simp only [Function.update_noteq hne]
            exact hd j

theorem releaseLoop_preserves_disjoint (toggle : Nat → Bool → Bool) :
    ∀ (k p : Nat) (s s2 : CpuState) (evs : List CpuEvent),
    releaseLoop toggle k p s = .ok (s2, evs) → DisjointSets s →
    DisjointSets s2 := by
  intro k
  induction k with
  | zero =>
    intro p s s2 evs h hd
    rw [releaseLoop] at h
    have heqs : s2 = s := congrArg Prod.fst (Except.ok.inj h).symm
    rw [heqs]
    exact hd
  | succ k ih =>
    intro p s s2 evs h hd
    rw [releaseLoop] at h
    cases hfind : findLowestFrom s.taken p with
    | none =>
      simp only [hfind] at h
      exact absurd h (by simp)
    | some i =>
      simp only [hfind] at h
      set s1 : CpuState :=
        { s with taken := Function.update s.taken i false,
                 online := Function.update s.online i true } with hs1
      cases htog : toggle i true with
      | false =>
        simp only [htog] at h
        exact absurd h (by simp)
      | true =>
        simp only [htog] at h
        cases hrec : releaseLoop toggle k (i + 1) s1 with
        | error e =>
          simp only [hrec] at h
          exact absurd h (by simp)
        | ok r =>
          obtain ⟨s2', evs'⟩ := r
          simp only [hrec] at h
          have heqs : s2 = s2' := congrArg Prod.fst (Except.ok.inj h).symm
          rw [heqs]
          refine ih (i + 1) s1 s2' evs' hrec ?_
          intro j
          rcases eq_or_ne j i with rfl | hne
          · simp [hs1, Function.update_same]
          · rw [hs1]
            simp only [Function.update_noteq hne]
            exact hd j

/-! ## Claim theorems -/

/-- C7: after every completed run of `adjust_cpus`, no CPU index is in
both `Online` and `Taken`, provided the two sets were disjoint when the
adjustment began — the disjointness holds at the end of every single
adjustment, not merely eventually. -/
theorem c7_disjointness (toggle : Nat → Bool → Bool) (ncpus : Nat)
    (s s2 : CpuState) (evs : List CpuEvent)
    (hd : ∀ i, ¬(s.online i = true ∧ s.taken i = true))
    (h : adjust_cpus toggle ncpus s = .ok (s2, evs)) :
    ∀ i, ¬(s2.online i = true ∧ s2.taken i = true) := by
  obtain ⟨_, hbr⟩ := adjust_cpus_ok_cases toggle ncpus s s2 evs h
  rcases hbr with ⟨_, s1, hloop, hs2eq⟩ | ⟨_, s1, hloop, hs2eq⟩ | ⟨_, hs2eq, _⟩
  · have := takeLoop_preserves_disjoint toggle _ _ s s1 evs hloop hd
    intro i
    rw [hs2eq]
    exact this i
  · have := releaseLoop_preserves_disjoint toggle _ _ s s1 evs hloop hd
    intro i
    rw [hs2eq]
    exact this i
  · intro i
    rw [hs2eq]
    exact hd i

/-- C10: when the rendezvous endpoint already exists (`mkfifo` fails
with `EEXIST`) and opening it for non-blocking writing succeeds, the
invocation attempts the single `DesiredState` write and exits with
success status 0 for every possible result of that write: the write's
return value is never examined, so a failed or partial write still
produces a success exit. -/
theorem c10_client_exit : ∀ writeResult : Int,
    client_rendezvous (some EEXIST) true writeResult
      = (ClientOutcome.exitSuccess, true) := by
  intro writeResult
  rfl

/-- C2 counterexample: a read of 8 bytes — fewer than one complete
16-byte `DesiredState` message but more than zero — is not treated as
"no message yet": the daemon's read loop terminates fatally on it. -/
theorem c2_counterexample :
    read_loop_decision 8 0 = .fatal ∧ (0 : Int) ≤ 8 ∧
      (8 : Int) < desiredMsgSize := by
  refine ⟨?_, by norm_num, by norm_num [desiredMsgSize]⟩
  rw [read_loop_decision]
  rw [if_neg (by norm_num [desiredMsgSize])]
  rw [if_pos (Or.inl (by norm_num))]

/-- C2 amended: while waiting for the next target, only a zero-byte
read, or a failed read with `errno = EAGAIN`, is treated as "no message
yet" (the loop waits for readiness and retries, state untouched); every
positive short read, and every failure with a different `errno`, is the
fatal "reading client command" exit. -/
theorem c2_incomplete_read :
    (∀ errno : Int, read_loop_decision 0 errno = .waitRetry) ∧
    (read_loop_decision (-1) EAGAIN = .waitRetry) ∧
    (∀ nb errno : Int, 0 < nb → nb < desiredMsgSize →
      read_loop_decision nb errno = .fatal) ∧
    (∀ nb errno : Int, nb < 0 → errno ≠ EAGAIN →
      read_loop_decision nb errno = .fatal) := by
  refine ⟨?_, ?_, ?_, ?_⟩
  · intro errno
    rw [read_loop_decision]
    rw [if_neg (by norm_num [desiredMsgSize])]
    rw [if_neg (by omega)]
  · rw [read_loop_decision]
    rw [if_neg (by norm_num [desiredMsgSize, EAGAIN])]
    rw [if_neg (by omega)]
  · intro nb errno h1 h2
    rw [read_loop_decision]
    rw [if_neg (by omega)]
    rw [if_pos (Or.inl h1)]
  · intro nb errno h1 h2
    rw [read_loop_decision]
    rw [if_neg (by simp only [desiredMsgSize]; omega)]
    rw [if_pos (Or.inr ⟨h1, h2⟩)]

/-- C2 witness: the amended behaviour at concrete reads — a zero-byte
read retries, an 8-byte partial read is fatal. -/
theorem c2_incomplete_read_witness :
    read_loop_decision 0 5 = .waitRetry ∧ read_loop_decision 8 3 = .fatal :=
  ⟨c2_incomplete_read.1 5,
   c2_incomplete_read.2.2.1 8 3 (by norm_num) (by norm_num [desiredMsgSize])⟩

/-- C3: the distinct permission diagnostic of `adjust_memory` is dead
code.  The C compares the mlock *return value* (0 or -1) against
`EPERM`, so no outcome of the call — in particular not a permission
failure, where mlock returns -1 with `errno = EPERM` — ever produces the
`"Lock memory requires CAP_IPC_LOCK"` exit; a permission failure falls
through to the generic `"Can't lock the pages in memory"` exit. -/
theorem c3_eperm_diagnostic :
    (∀ (mo : MlockOutcome) (membytes : Int) (m : MemState),
      isCapError (adjust_memory mo membytes m) = false) ∧
    adjust_memory (.failure EPERM) 4096 ⟨8192, 0⟩
      = .error .lockGenericFail := by
  constructor
  · intro mo membytes m
    cases mo with
    | success =>
      rw [adjust_memory]
      by_cases hlt : m.memory_taken < membytes
      · rw [if_pos hlt,
          if_pos (show mlockReturn MlockOutcome.success = 0 from rfl)]
        rfl
      · rw [if_neg hlt]
        by_cases hgt : membytes < m.memory_taken
        · rw [if_pos hgt]; rfl
        · rw [if_neg hgt]; rfl
    | failure e =>
      rw [adjust_memory]
      by_cases hlt : m.memory_taken < membytes
      · rw [if_pos hlt,
          if_neg (show ¬mlockReturn (MlockOutcome.failure e) = 0 by
            rw [mlockReturn]; norm_num),
          if_neg (show ¬mlockReturn (MlockOutcome.failure e) = EPERM by
            rw [mlockReturn, EPERM]; norm_num)]
        rfl
      · rw [if_neg hlt]
        by_cases hgt : membytes < m.memory_taken
        · rw [if_pos hgt]; rfl
        · rw [if_neg hgt]; rfl
  · rfl

/-! ## Concrete demonstration runs (used by the witnesses)

The scans and cardinality computations range over all 4096 array
entries, so concrete runs are evaluated symbolically: the deep subterms
(`count_cpu_set`, the downward scan from `max_cpu_count`) are rewritten
with the characterization lemmas, after which the remainder reduces. -/

theorem count_all_false : count_cpu_set (fun _ => false : Nat → Bool) = 0 :=
  count_cpu_set_of_all_false _ (fun _ => rfl)

theorem count_lt_two : count_cpu_set (fun i => decide (i < 2)) = 2 := by
  rw [count_cpu_set]
  have hset : (Finset.range max_cpu_count).filter
      (fun i => (decide (i < 2) : Bool) = true) = {0, 1} := by
    ext j
    simp only [Finset.mem_filter, Finset.mem_range, decide_eq_true_eq,
      Finset.mem_insert, Finset.mem_singleton, max_cpu_count]
    omega
  rw [hset]
  rfl

theorem count_eq_one_demo : count_cpu_set (fun i => decide (i = 1)) = 1 := by
  rw [count_cpu_set]
  have hset : (Finset.range max_cpu_count).filter
      (fun i => (decide (i = 1) : Bool) = true) = {1} := by
    ext j
    simp only [Finset.mem_filter, Finset.mem_range, decide_eq_true_eq,
      Finset.mem_singleton, max_cpu_count]
    omega
  rw [hset]
  rfl

theorem count_eq_five_demo : count_cpu_set (fun i => decide (i = 5)) = 1 := by
  rw [count_cpu_set]
  have hset : (Finset.range max_cpu_count).filter
      (fun i => (decide (i = 5) : Bool) = true) = {5} := by
    ext j
    simp only [Finset.mem_filter, Finset.mem_range, decide_eq_true_eq,
      Finset.mem_singleton, max_cpu_count]
    omega
  rw [hset]
  rfl

theorem count_demo_taken :
    count_cpu_set (Function.update (fun _ => false : Nat → Bool) 2 true) = 1 := by
  rw [count_cpu_set_update_true (fun _ => false) 2 (by norm_num [max_cpu_count]) rfl,
    count_all_false]

theorem adjust_take_demo :
    adjust_cpus (fun _ _ => true) 1
      ⟨fun i => decide (i = 1 ∨ i = 2), fun _ => false, 0⟩
    = .ok (⟨Function.update (fun i => decide (i = 1 ∨ i = 2)) 2 false,
            Function.update (fun _ => false) 2 true, 1⟩,
           [CpuEvent.setOffline 2]) := by
  have hfind : findHighestBelow (fun i => decide (i = 1 ∨ i = 2)) max_cpu_count
      = some 2 :=
    findHighestBelow_eq_some_of _ 2 _ (by simp) (by norm_num [max_cpu_count])
      (by intro j h1 h2; simp only [decide_eq_false_iff_not]; omega)
  rw [adjust_cpus]
  rw [show (⟨fun i => decide (i = 1 ∨ i = 2), fun _ => false, 0⟩ : CpuState).taken
      = (fun _ => false : Nat → Bool) from rfl]
  rw [count_all_false]
  rw [if_neg (show ¬((0:Nat) ≠
      (⟨fun i => decide (i = 1 ∨ i = 2), fun _ => false, 0⟩ : CpuState).counter) by
    norm_num)]
  rw [if_pos (show (0:Nat) < 1 by norm_num)]
  rw [Nat.sub_zero, takeLoop]
  rw [show (⟨fun i => decide (i = 1 ∨ i = 2), fun _ => false, 0⟩ : CpuState).online
      = (fun i => decide (i = 1 ∨ i = 2)) from rfl]
  rw [hfind]
  rfl

theorem adjust_release_demo :
    adjust_cpus (fun _ _ => true) 0
      ⟨Function.update (fun i => decide (i = 1 ∨ i = 2)) 2 false,
       Function.update (fun _ => false) 2 true, 1⟩
    = .ok (⟨Function.update
              (Function.update (fun i => decide (i = 1 ∨ i = 2)) 2 false) 2 true,
            Function.update
              (Function.update (fun _ => false : Nat → Bool) 2 true) 2 false, 0⟩,
           [CpuEvent.setOnline 2]) := by
  rw [adjust_cpus]
  rw [show (⟨Function.update (fun i => decide (i = 1 ∨ i = 2)) 2 false,
       Function.update (fun _ => false) 2 true, 1⟩ : CpuState).taken
      = Function.update (fun _ => false : Nat → Bool) 2 true from rfl]
  rw [count_demo_taken]
  rfl

theorem runSession_demo :
    runSession (fun _ _ => true)
      ⟨fun i => decide (i = 1 ∨ i = 2), fun _ => false, 0⟩ [1, 0]
    = .ok (⟨Function.update
              (Function.update (fun i => decide (i = 1 ∨ i = 2)) 2 false) 2 true,
            Function.update
              (Function.update (fun _ => false : Nat → Bool) 2 true) 2 false, 0⟩,
           [CpuEvent.setOffline 2, CpuEvent.setOnline 2]) := by
  rw [runSession]
  simp only [adjust_take_demo]
  rw [runSession]
  simp only [adjust_release_demo]
  rw [runSession]
  rfl

/-- C7 witness: disjointness at CPU 2 after a concrete adjustment that
takes CPU 2 offline from `Online = {1, 2}`. -/
theorem c7_disjointness_witness :
    ¬((⟨Function.update (fun i => decide (i = 1 ∨ i = 2)) 2 false,
        Function.update (fun _ => false) 2 true, 1⟩ : CpuState).online 2 = true ∧
      (⟨Function.update (fun i => decide (i = 1 ∨ i = 2)) 2 false,
        Function.update (fun _ => false) 2 true, 1⟩ : CpuState).taken 2 = true) :=
  c7_disjointness (fun _ _ => true) 1
    ⟨fun i => decide (i = 1 ∨ i = 2), fun _ => false, 0⟩ _ _
    (by
      intro i hboth
      have := hboth.2
      exact absurd this (by simp))
    adjust_take_demo 2

/-- C1 counterexample: with CPUs 0 and 1 online, nothing taken, and the
target `(membytes, cpus) = (0, 2)` — `cpus` equal to the number of
online CPUs, inside the claimed valid range — the convergence iteration
does not converge: the take scan reaches CPU 0 and the process exits
fatally with "can't exhaust online cpus". -/
theorem c1_counterexample :
    apply_desired (fun _ _ => true) .success 0 2
      ⟨fun i => decide (i < 2), fun _ => false, 0⟩ ⟨8192, 0⟩
    = .error (.cpu .exhaust) ∧
    count_cpu_set (fun i => decide (i < 2)) = 2 ∧
    Consistent ⟨fun i => decide (i < 2), fun _ => false, 0⟩ := by
  have hfind : findHighestBelow (fun i => decide (i < 2)) max_cpu_count
      = some 1 :=
    findHighestBelow_eq_some_of _ 1 _ (by simp) (by norm_num [max_cpu_count])
      (by intro j h1 h2; simp only [decide_eq_false_iff_not]; omega)
  have hadj : adjust_cpus (fun _ _ => true) 2
      ⟨fun i => decide (i < 2), fun _ => false, 0⟩ = .error .exhaust := by
    rw [adjust_cpus]
    rw [show (⟨fun i => decide (i < 2), fun _ => false, 0⟩ : CpuState).taken
        = (fun _ => false : Nat → Bool) from rfl]
    rw [count_all_false]
    rw [if_neg (show ¬((0:Nat) ≠
        (⟨fun i => decide (i < 2), fun _ => false, 0⟩ : CpuState).counter) by
      norm_num)]
    rw [if_pos (show (0:Nat) < 2 by norm_num)]
    rw [Nat.sub_zero, takeLoop]
    rw [show (⟨fun i => decide (i < 2), fun _ => false, 0⟩ : CpuState).online
        = (fun i => decide (i < 2)) from rfl]
    rw [hfind]
    rfl
  refine ⟨?_, count_lt_two, ?_, ?_, ?_⟩
  · rw [apply_desired]
    simp only [hadj]
  · constructor
    · intro i hi
      simp only [decide_eq_true_eq] at hi
      simp only [max_cpu_count]
      omega
    · intro i hi
      exact absurd hi (by simp)
  · intro i hboth
    exact absurd hboth.2 (by simp)
  · exact count_all_false.symm

/-- C1 amended: for a target `(membytes, cpus)` with
`cpus ∈ [0, |Online|]` and `membytes` page-rounded in
`[0, total physical RAM]`, one convergence iteration from a consistent
state, with every external CPU toggle and the memory lock succeeding,
establishes `|Taken| = cpus` and `memory_taken = membytes` — provided
additionally that the take scan is not forced to take CPU 0, i.e. when
CPU 0 is online and nothing is taken yet, `cpus` is strictly below the
online count (taking every online CPU including CPU 0 is fatal
instead, per the counterexample). -/
theorem c1_convergence (toggle : Nat → Bool → Bool)
    (ncpus : Nat) (membytes : Int) (s : CpuState) (m : MemState)
    (htog : ∀ a b, toggle a b = true)
    (hcons : Consistent s)
    (hcpu : ncpus ≤ count_cpu_set s.online)
    (hzero : s.online 0 = true → count_cpu_set s.taken = 0 →
      ncpus < count_cpu_set s.online)
    (hm0 : 0 ≤ membytes) (hmmax : membytes ≤ m.max_size)
    (hpage : membytes % 4096 = 0) :
    ∃ s2 m2 cevs mevs,
      apply_desired toggle .success membytes ncpus s m
        = .ok ((s2, m2), (cevs, mevs)) ∧
      count_cpu_set s2.taken = ncpus ∧ m2.memory_taken = membytes := by
  obtain ⟨s2, cevs, hadj⟩ :=
    adjust_cpus_succeeds toggle htog ncpus s hcons hcpu hzero
  obtain ⟨hb, hd, _⟩ := hcons
  obtain ⟨_, _, hcnt, _, _⟩ := adjust_cpus_ok_facts toggle ncpus s s2 cevs hadj hb hd
  obtain ⟨m2, mevs, hmem, hmtk⟩ := adjust_memory_succeeds membytes m
  refine ⟨s2, m2, cevs, mevs, ?_, hcnt, hmtk⟩
  rw [apply_desired]
  simp only [hadj, hmem]

/-- C1 witness: a concrete convergence — one CPU withheld out of
`Online = {1}` and 4096 bytes locked — succeeds with the claimed
postcondition. -/
theorem c1_convergence_witness :
    ∃ s2 m2 cevs mevs,
      apply_desired (fun _ _ => true) .success 4096 1
        ⟨fun i => decide (i = 1), fun _ => false, 0⟩ ⟨8192, 0⟩
        = .ok ((s2, m2), (cevs, mevs)) ∧
      count_cpu_set s2.taken = 1 ∧ m2.memory_taken = 4096 :=
  c1_convergence (fun _ _ => true) 1 4096
    ⟨fun i => decide (i = 1), fun _ => false, 0⟩ ⟨8192, 0⟩
    (fun _ _ => rfl)
    ⟨⟨fun i hi => by
        simp only [decide_eq_true_eq] at hi
        simp only [max_cpu_count]
        omega,
      fun i hi => absurd hi (by simp)⟩,
     fun i hboth => absurd hboth.2 (by simp),
     count_all_false.symm⟩
    (by rw [count_eq_one_demo])
    (fun h _ => absurd h (by simp))
    (by norm_num) (by norm_num) (by norm_num)

/-- C8 counterexample: from the consistent state `Online = ∅`,
`Taken = {5}`, counter 1, asking for 2 taken CPUs makes the take scan
run past index 0 without stopping: the unsigned index wraps and the
scan reads a membership entry outside `[0, max_cpu_count)` (undefined
behaviour in the C, the explicit out-of-range outcome here) — the scan
does not stay inside the index domain. -/
theorem c8_counterexample :
    adjust_cpus (fun _ _ => true) 2
      ⟨fun _ => false, fun i => decide (i = 5), 1⟩ = .error .scanOutOfRange ∧
    count_cpu_set (fun i => decide (i = 5)) = 1 ∧
    Consistent ⟨fun _ => false, fun i => decide (i = 5), 1⟩ := by
  have hnone : findHighestBelow (fun _ => false : Nat → Bool) max_cpu_count
      = none :=
    findHighestBelow_eq_none_of _ _ (fun j _ => rfl)
  refine ⟨?_, count_eq_five_demo, ?_, ?_, ?_⟩
  · rw [adjust_cpus]
    rw [show (⟨fun _ => false, fun i => decide (i = 5), 1⟩ : CpuState).taken
        = (fun i => decide (i = 5)) from rfl]
    rw [count_eq_five_demo]
    rw [if_neg (show ¬((1:Nat) ≠
        (⟨fun _ => false, fun i => decide (i = 5), 1⟩ : CpuState).counter) by
      norm_num)]
    rw [if_pos (show (1:Nat) < 2 by norm_num)]
    rw [show (2 - 1 : Nat) = 1 from rfl, takeLoop]
    rw [show (⟨fun _ => false, fun i => decide (i = 5), 1⟩ : CpuState).online
        = (fun _ => false : Nat → Bool) from rfl]
    rw [hnone]
  · constructor
    · intro i hi
      exact absurd hi (by simp)
    · intro i hi
      simp only [decide_eq_true_eq] at hi
      simp only [max_cpu_count]
      omega
  · intro i hboth
    exact absurd hboth.1 (by simp)
  · exact count_eq_five_demo.symm

/-- C8 amended: when the downward scan stops at index 0 (CPU 0 is the
next online CPU) before the target is reached, the process terminates
fatally instead of taking CPU 0 offline; whenever the scan finds a CPU
it is inside the scan range and really online; but when no online CPU
remains below the scan position the scan does not stay in the index
domain — the C wraps its unsigned index past zero and reads outside the
array, modelled as the out-of-range outcome. -/
theorem c8_scan_behavior :
    (∀ (toggle : Nat → Bool → Bool) (k p : Nat) (s : CpuState),
      findHighestBelow s.online p = some 0 →
      takeLoop toggle (k + 1) p s = .error .exhaust) ∧
    (∀ (online : Nat → Bool) (p i : Nat), findHighestBelow online p = some i →
      i < p ∧ online i = true) ∧
    (∀ (toggle : Nat → Bool → Bool) (k p : Nat) (s : CpuState),
      findHighestBelow s.online p = none →
      takeLoop toggle (k + 1) p s = .error .scanOutOfRange) := by
  refine ⟨?_, ?_, ?_⟩
  · intro toggle k p s h
    rw [takeLoop]
    simp only [h]
    rw [if_pos trivial]
  · intro online p i h
    obtain ⟨h1, h2, _⟩ := findHighestBelow_some online p i h
    exact ⟨h2, h1⟩
  · intro toggle k p s h
    rw [takeLoop]
    simp only [h]

/-- C8 witness: the three amended behaviours at concrete states — the
scan stopping at online CPU 0 is the fatal exhaust, a found CPU is
in range and online, and an empty online set below the scan start is
the out-of-range outcome. -/
theorem c8_scan_behavior_witness :
    takeLoop (fun _ _ => true) 1 1
      ⟨fun i => decide (i = 0), fun _ => false, 0⟩ = .error .exhaust ∧
    (2 < 3 ∧ (fun _ => true : Nat → Bool) 2 = true) ∧
    takeLoop (fun _ _ => true) 1 1
      ⟨fun _ => false, fun _ => false, 0⟩ = .error .scanOutOfRange :=
  ⟨c8_scan_behavior.1 (fun _ _ => true) 0 1
      ⟨fun i => decide (i = 0), fun _ => false, 0⟩ rfl,
   c8_scan_behavior.2.1 (fun _ => true) 3 2 rfl,
   c8_scan_behavior.2.2 (fun _ _ => true) 0 1
      ⟨fun _ => false, fun _ => false, 0⟩ rfl⟩

/-- C9: applying the same `DesiredState` `(membytes, ncpus)` twice in
succession leaves `Online`, `Taken` and `memory_taken` identical after
the second application to their values after the first, and the second
application issues no CPU toggles and no lock, unlock or discard
operations (both traces are empty), whatever the external oracles would
have answered the second time. -/
theorem c9_idempotent (toggle toggle2 : Nat → Bool → Bool)
    (mo mo2 : MlockOutcome) (ncpus : Nat) (membytes : Int)
    (s : CpuState) (m : MemState) (s1 : CpuState) (m1 : MemState)
    (cevs : List CpuEvent) (mevs : List MemEvent)
    (hb : BoundedSets s) (hd : DisjointSets s)
    (h : apply_desired toggle mo membytes ncpus s m
      = .ok ((s1, m1), (cevs, mevs))) :
    apply_desired toggle2 mo2 membytes ncpus s1 m1
      = .ok ((s1, m1), ([], [])) := by
  rw [apply_desired] at h
  cases hadj : adjust_cpus toggle ncpus s with
  | error e =>
    simp only [hadj] at h
    exact absurd h (by simp)
  | ok r =>
    obtain ⟨s1', cevs'⟩ := r
    simp only [hadj] at h
    cases hmem : adjust_memory mo membytes m with
    | error e =>
      simp only [hmem] at h
      exact absurd h (by simp)
    | ok r2 =>
      obtain ⟨m1', mevs'⟩ := r2
      simp only [hmem] at h
      have hpair := (Except.ok.inj h).symm
      have heqs : s1 = s1' := congrArg (fun x => x.1.1) hpair
      have heqm : m1 = m1' := congrArg (fun x => x.1.2) hpair
      subst heqs
      subst heqm
      obtain ⟨_, hctr, hcnt, _, _⟩ :=
        adjust_cpus_ok_facts toggle ncpus s s1 cevs' hadj hb hd
      obtain ⟨hmtk, _⟩ := adjust_memory_ok_taken mo membytes m m1 mevs' hmem
      have hadj2 : adjust_cpus toggle2 ncpus s1 = .ok (s1, []) := by
        rw [adjust_cpus]
        rw [if_neg (by omega)]
        rw [if_neg (by omega)]
        rw [if_neg (by omega)]
        rw [show ncpus = s1.counter from hctr.symm]
      have hmem2 : adjust_memory mo2 membytes m1 = .ok (m1, []) := by
        rw [adjust_memory]
        rw [if_neg (by omega)]
        rw [if_neg (by omega)]
      rw [apply_desired]
      simp only [hadj2, hmem2]

theorem apply_desired_demo :
    apply_desired (fun _ _ => true) .success 4096 1
      ⟨fun i => decide (i = 1 ∨ i = 2), fun _ => false, 0⟩ ⟨8192, 0⟩
    = .ok ((⟨Function.update (fun i => decide (i = 1 ∨ i = 2)) 2 false,
             Function.update (fun _ => false) 2 true, 1⟩, ⟨8192, 4096⟩),
           ([CpuEvent.setOffline 2], [MemEvent.mlockCall 0 4096])) := by
  rw [apply_desired]
  simp only [adjust_take_demo]
  rfl

/-- C9 witness: after a concrete application (take CPU 2, lock 4096
bytes), applying the same target again returns the same state with
empty transition traces. -/
theorem c9_idempotent_witness :
    apply_desired (fun _ _ => true) .success 4096 1
      ⟨Function.update (fun i => decide (i = 1 ∨ i = 2)) 2 false,
       Function.update (fun _ => false) 2 true, 1⟩ ⟨8192, 4096⟩
    = .ok ((⟨Function.update (fun i => decide (i = 1 ∨ i = 2)) 2 false,
             Function.update (fun _ => false) 2 true, 1⟩, ⟨8192, 4096⟩),
           ([], [])) :=
  c9_idempotent (fun _ _ => true) (fun _ _ => true) .success .success 1 4096
    ⟨fun i => decide (i = 1 ∨ i = 2), fun _ => false, 0⟩ ⟨8192, 0⟩ _ _ _ _
    ⟨fun i hi => by
        simp only [decide_eq_true_eq] at hi
        simp only [max_cpu_count]
        omega,
      fun i hi => absurd hi (by simp)⟩
    (fun i hboth => absurd hboth.2 (by simp))
    apply_desired_demo

/-- C6: taking scans `Online` from the highest index downward and
releasing scans `Taken` from the lowest index upward (the loop
characterizations `takeLoop_ok_spec` / `releaseLoop_ok_spec`);
consequently, across every session of successive adjustments that
starts with nothing taken and ends with every CPU released, the first
CPU ever taken offline is the last one put back online. -/
theorem c6_lifo_release (toggle : Nat → Bool → Bool) (targets : List Nat)
    (s0 sF : CpuState) (tr : List CpuEvent)
    (hon : ∀ i, s0.online i = true → i < max_cpu_count)
    (htk : ∀ i, s0.taken i = false)
    (hctr : s0.counter = 0)
    (hrun : runSession toggle s0 targets = .ok (sF, tr))
    (hend : ∀ i, sF.taken i = false)
    (hne : offlineEvents tr ≠ []) :
    (onlineEvents tr).getLast? = (offlineEvents tr).head? := by
  have hinv0 : SessionInv s0 [] := by
    refine ⟨⟨⟨hon, fun i hi => absurd hi (by rw [htk i]; simp)⟩,
      fun i hboth => absurd hboth.2 (by rw [htk i]; simp),
      by rw [count_cpu_set_of_all_false s0.taken htk, hctr]⟩,
      Or.inl ⟨rfl, rfl, htk⟩⟩
  have hinvF := runSession_inv toggle targets s0 [] sF tr hinv0 hrun
  rw [List.nil_append] at hinvF
  exact sessionInv_final sF tr hinvF hend hne

/-- C6 witness: a concrete session on `Online = {1, 2}` — take one CPU,
then release everything — in which the first CPU taken (CPU 2) is the
last one put back online. -/
theorem c6_lifo_release_witness :
    (onlineEvents [CpuEvent.setOffline 2, CpuEvent.setOnline 2]).getLast?
      = (offlineEvents [CpuEvent.setOffline 2, CpuEvent.setOnline 2]).head? :=
  c6_lifo_release (fun _ _ => true) [1, 0]
    ⟨fun i => decide (i = 1 ∨ i = 2), fun _ => false, 0⟩ _ _
    (by
      intro i hi
      simp only [decide_eq_true_eq] at hi
      simp only [max_cpu_count]
      omega)
    (fun _ => rfl) rfl runSession_demo
    (by
      intro i
      show Function.update
        (Function.update (fun _ => false : Nat → Bool) 2 true) 2 false i = false
      rcases eq_or_ne i 2 with rfl | hne
      · rw [Function.update_same]
      · rw [Function.update_noteq hne, Function.update_noteq hne])
    (by
      intro hnil
      simp [offlineEvents] at hnil)

/-- C4 counterexample: in the range-list text `"0-5000"`, id 0 lies
below `max_cpu_count` and is referenced via a `lo-hi` range whose other
endpoint 5000 is beyond `max_cpu_count`, yet the parser does not mark
it: a range is applied only when both endpoints are in bounds. -/
theorem c4_counterexample :
    (parse_sysfs_cpu_set ['0', '-', '5', '0', '0', '0']
      (fun _ => false)).marks 0 = false ∧
    (parse_sysfs_cpu_set ['0', '-', '5', '0', '0', '0']
      (fun _ => false)).events = [.range 0 5000] :=
  ⟨rfl, rfl⟩

/-- C4 amended: the parser never marks any id at or beyond
`max_cpu_count` (out-of-range references are silently ignored), and an
id is marked exactly when it was initially marked or some recognized
reference names it — where a single reference names its id only when it
is below `max_cpu_count`, and a `lo-hi` range names its members only
when both endpoints are below `max_cpu_count`: an id below
`max_cpu_count` referenced via a range whose other endpoint is at or
beyond `max_cpu_count` is dropped together with the whole range. -/
theorem c4_marking :
    (∀ (text : List Char) (init : Nat → Bool) (i : Nat), max_cpu_count ≤ i →
      (parse_sysfs_cpu_set text init).marks i = init i) ∧
    (∀ (text : List Char) (init : Nat → Bool) (i : Nat),
      ((parse_sysfs_cpu_set text init).marks i = true ↔
        (init i = true ∨ ∃ e, e ∈ (parse_sysfs_cpu_set text init).events ∧
          refersTo e i))) := by
  have h2 : ∀ (text : List Char) (init : Nat → Bool) (i : Nat),
      ((parse_sysfs_cpu_set text init).marks i = true ↔
        (init i = true ∨ ∃ e, e ∈ (parse_sysfs_cpu_set text init).events ∧
          refersTo e i)) := by
    intro text init i
    exact parseLoopF_marks (text.length + 1) text init i
  refine ⟨?_, h2⟩
  intro text init i hge
  cases hmv : (parse_sysfs_cpu_set text init).marks i with
  | true =>
    rcases (h2 text init i).mp hmv with hinit | ⟨e, _, hr⟩
    · exact hinit.symm
    · have := refersTo_lt e i hr
      omega
  | false =>
    cases hinit : init i with
    | false => rfl
    | true =>
      have := (h2 text init i).mpr (Or.inl hinit)
      rw [hmv] at this
      exact absurd this (by simp)

/-- C4 witness: an out-of-range single id is not marked, and the
marks-events correspondence at a concrete in-range parse. -/
theorem c4_marking_witness :
    (parse_sysfs_cpu_set ['4', '2', '0', '0'] (fun _ => false)).marks 4200
      = false ∧
    ((parse_sysfs_cpu_set ['7'] (fun _ => false)).marks 7 = true ↔
      ((fun _ => false : Nat → Bool) 7 = true ∨
        ∃ e, e ∈ (parse_sysfs_cpu_set ['7'] (fun _ => false)).events ∧
          refersTo e 7)) :=
  ⟨c4_marking.1 ['4', '2', '0', '0'] (fun _ => false) 4200
      (by simp only [max_cpu_count]; omega),
   c4_marking.2 ['7'] (fun _ => false) 7⟩

/-- C5: the range-list text `"0-3,garbage"` yields exactly the
membership `{0, 1, 2, 3}` and parsing stops at `"garbage"` with the
anomaly give-up — a normal return, not a process exit; and in general a
matching failure of the leading number, or of the number after a `-`,
makes the parser return at once with the marks of the valid prefix
unchanged. -/
theorem c5_lenient_stop :
    (∀ i, (parse_sysfs_cpu_set
        ['0', '-', '3', ',', 'g', 'a', 'r', 'b', 'a', 'g', 'e']
        (fun _ => false)).marks i = decide (i ≤ 3)) ∧
    (parse_sysfs_cpu_set ['0', '-', '3', ',', 'g', 'a', 'r', 'b', 'a', 'g', 'e']
      (fun _ => false)).stop = .anomaly ∧
    (parse_sysfs_cpu_set ['0', '-', '3', ',', 'g', 'a', 'r', 'b', 'a', 'g', 'e']
      (fun _ => false)).events = [.range 0 3] ∧
    (∀ (fuel : Nat) (s : List Char) (m : Nat → Bool), scanU s = none →
      parseLoopF (fuel + 1) s m = ⟨m, [], .anomaly⟩) ∧
    (∀ (fuel : Nat) (s : List Char) (m : Nat → Bool) (n : ScanNum)
      (s2 : List Char), scanU s = some n → s.drop n.consumed = '-' :: s2 →
      scanU s2 = none → parseLoopF (fuel + 1) s m = ⟨m, [], .anomaly⟩) := by
  have heval : parse_sysfs_cpu_set
      ['0', '-', '3', ',', 'g', 'a', 'r', 'b', 'a', 'g', 'e'] (fun _ => false)
      = ⟨markRange 0 3 (fun _ => false), [.range 0 3], .anomaly⟩ := rfl
  refine ⟨?_, by rw [heval], by rw [heval],
    parseLoopF_stop_at_anomaly, parseLoopF_stop_at_range_anomaly⟩
  intro i
  rw [heval]
  show markRange 0 3 (fun _ => false) i = decide (i ≤ 3)
  rw [markRange]
  simp [Nat.zero_le]

/-- C5 witness: the stop behaviour at two concrete anomalous texts —
`"x"` fails at the leading number, `"5-;"` fails at the range end; both
return at once with the marks unchanged. -/
theorem c5_lenient_stop_witness :
    parseLoopF 1 ['x'] (fun _ => false)
      = ⟨(fun _ => false), [], .anomaly⟩ ∧
    parseLoopF 3 ['5', '-', ';'] (fun _ => false)
      = ⟨(fun _ => false), [], .anomaly⟩ :=
  ⟨c5_lenient_stop.2.2.2.1 0 ['x'] (fun _ => false) rfl,
   c5_lenient_stop.2.2.2.2 2 ['5', '-', ';'] (fun _ => false) ⟨5, 1⟩ [';']
     rfl rfl rfl⟩

end Wastebin
